import Mathlib

/-!
Verification of the label templating and export pipeline of the repository
(the Spoolman label export UI).  Strings are modelled as `List Char`; the
brace characters are written with their hex escapes `'\x7b'` (left brace)
and `'\x7d'` (right brace) throughout, to keep string literals free of
braces.

The first part embeds the template engine of `src/unnamed/part_006`:
`getTagValue` and `renderTemplateText`.  `renderTemplateText` first collects
all matches of the JavaScript regex `/{(?:[^}{]|{[^}{]*})*}/gs` over the
template, then for each match performs a first-occurrence textual
replacement on the evolving output string.  The regex engine's behaviour on
this particular pattern is deterministic: backtracking into the greedy body
never changes the outcome, because giving back an item leaves a character
that cannot be the required closing brace.  The functions below implement
that deterministic reading directly.  Recursions that are not structural
are written with an explicit fuel argument initialised to the input length,
which provably suffices; this keeps every definition computable by kernel
reduction.
-/

/-- Character class `[^}{]` of the outer template regex: any character that
is not a brace. -/
def nonBrace (c : Char) : Bool := !(c = '\x7b' || c = '\x7d')

/-- Parser for the tail of the inner alternative `{[^}{]*}` of the outer
regex: given the text after an opening brace, consume a run of non-brace
characters and then a closing brace, returning the run and the remaining
text.  Fails (`none`) when a brace of the wrong kind cuts the run short. -/
def parseRun : List Char → Option (List Char × List Char)
  | [] => none
  | c :: r =>
    if c = '\x7d' then some ([], r)
    else if c = '\x7b' then none
    else (parseRun r).map (fun p => (c :: p.1, p.2))

theorem parseRun_append {s p rest : List Char} (h : parseRun s = some (p, rest)) :
    p ++ '\x7d' :: rest = s := by
  induction s generalizing p rest with
  | nil => simp [parseRun] at h
  | cons c r ih =>
    by_cases hc : c = '\x7d'
    · simp [parseRun, hc] at h
      obtain ⟨h1, h2⟩ := h
      subst h1; subst h2; simp [hc]
    · by_cases hb : c = '\x7b'
      · simp [parseRun, hc, hb] at h
      · rw [parseRun] at h
        rw [if_neg hc, if_neg hb] at h
        rcases hpr : parseRun r with _ | ⟨q, rq⟩
        · rw [hpr] at h; simp at h
        · rw [hpr] at h
          simp only [Option.map_some'] at h
          have h1 : c :: q = p := congrArg Prod.fst (Option.some.inj h)
          have h2 : rq = rest := congrArg Prod.snd (Option.some.inj h)
          subst h1; subst h2
          simpa using ih hpr

theorem parseRun_nonBrace {tag : List Char} (h : ∀ c ∈ tag, nonBrace c = true)
    (s : List Char) : parseRun (tag ++ '\x7d' :: s) = some (tag, s) := by
  induction tag with
  | nil => simp [parseRun]
  | cons c t ih =>
    have hc := h c (by simp)
    simp only [nonBrace, Bool.not_eq_true', Bool.or_eq_false_iff, decide_eq_false_iff_not] at hc
    rw [List.cons_append, parseRun, if_neg hc.2, if_neg hc.1,
      ih (fun d hd => h d (by simp [hd]))]
    rfl

/-- Greedy parse of the body `(?:[^}{]|{[^}{]*})*` of the outer template
regex, with explicit fuel: consume as many items as possible, where an item
is a single non-brace character or a complete brace-delimited non-nested
block, and return the consumed text together with the rest. -/
def parseItemsF : Nat → List Char → List Char × List Char
  | 0, s => ([], s)
  | _ + 1, [] => ([], [])
  | f + 1, c :: r =>
    if c = '\x7d' then ([], c :: r)
    else if c = '\x7b' then
      match parseRun r with
      | some (run, r2) =>
        let p := parseItemsF f r2
        ('\x7b' :: run ++ '\x7d' :: p.1, p.2)
      | none => ([], c :: r)
    else
      let p := parseItemsF f r
      (c :: p.1, p.2)

/-- Greedy parse of the regex body, fuel instantiated to the input length
(which always suffices, see `parseItemsF_congr`). -/
def parseItems (s : List Char) : List Char × List Char := parseItemsF s.length s

theorem parseItemsF_succ : ∀ (f : Nat) (s : List Char), s.length ≤ f →
    parseItemsF (f + 1) s = parseItemsF f s := by
  intro f
  induction f with
  | zero =>
    intro s hs
    have : s = [] := List.length_eq_zero.mp (Nat.le_zero.mp hs)
    subst this
    rfl
  | succ f ih =>
    intro s hs
    cases s with
    | nil => rfl
    | cons c r =>
      have hr : r.length ≤ f := by simpa using hs
      by_cases hc : c = '\x7d'
      · rw [parseItemsF, parseItemsF, if_pos hc, if_pos hc]
      · by_cases hb : c = '\x7b'
        · rw [parseItemsF, parseItemsF, if_neg hc, if_neg hc, if_pos hb, if_pos hb]
          rcases hpr : parseRun r with _ | ⟨run, r2⟩
          · rfl
          · have hlen := congrArg List.length (parseRun_append hpr)
            simp only [List.length_append, List.length_cons] at hlen
            have hr2 : r2.length ≤ f := by omega
            simp only [ih r2 hr2]
        · rw [parseItemsF, parseItemsF, if_neg hc, if_neg hc, if_neg hb, if_neg hb,
            ih r hr]

theorem parseItemsF_congr : ∀ (f : Nat) (s : List Char), s.length ≤ f →
    parseItemsF f s = parseItems s := by
  intro f
  induction f with
  | zero =>
    intro s hs
    have : s = [] := List.length_eq_zero.mp (Nat.le_zero.mp hs)
    subst this
    rfl
  | succ f ih =>
    intro s hs
    rcases Nat.lt_or_ge s.length (f + 1) with h | h
    · have h1 : s.length ≤ f := by omega
      rw [parseItemsF_succ f s h1, ih s h1]
    · have h1 : s.length = f + 1 := by omega
      rw [parseItems, h1]

theorem parseItems_nil : parseItems [] = ([], []) := rfl

theorem parseItems_close (r : List Char) : parseItems ('\x7d' :: r) = ([], '\x7d' :: r) := by
  rw [parseItems, List.length_cons, parseItemsF, if_pos rfl]

theorem parseItems_open_some {r run r2 : List Char} (h : parseRun r = some (run, r2)) :
    parseItems ('\x7b' :: r) =
      ('\x7b' :: run ++ '\x7d' :: (parseItems r2).1, (parseItems r2).2) := by
  have hlen := congrArg List.length (parseRun_append h)
  simp only [List.length_append, List.length_cons] at hlen
  rw [parseItems, List.length_cons, parseItemsF]
  rw [if_neg (by decide), if_pos rfl, h]
  simp only [parseItemsF_congr r.length r2 (by omega)]

theorem parseItems_open_none {r : List Char} (h : parseRun r = none) :
    parseItems ('\x7b' :: r) = ([], '\x7b' :: r) := by
  rw [parseItems, List.length_cons, parseItemsF]
  rw [if_neg (by decide), if_pos rfl, h]

theorem parseItems_other {c : Char} (hc : ¬c = '\x7d') (hb : ¬c = '\x7b')
    (r : List Char) :
    parseItems (c :: r) = (c :: (parseItems r).1, (parseItems r).2) := by
  rw [parseItems, List.length_cons, parseItemsF, if_neg hc, if_neg hb]
  rfl

theorem parseItems_append (s : List Char) : (parseItems s).1 ++ (parseItems s).2 = s := by
  generalize hn : s.length = n
  induction n using Nat.strong_induction_on generalizing s with
  | _ n ih =>
    cases s with
    | nil => simp [parseItems_nil]
    | cons c r =>
      by_cases hc : c = '\x7d'
      · subst hc; rw [parseItems_close]; simp
      · by_cases hb : c = '\x7b'
        · subst hb
          rcases hpr : parseRun r with _ | ⟨run, r2⟩
          · rw [parseItems_open_none hpr]; simp
          · rw [parseItems_open_some hpr]
            have hlen := congrArg List.length (parseRun_append hpr)
            simp only [List.length_append, List.length_cons] at hlen
            have ih2 := ih r2.length (by subst hn; simp; omega) r2 rfl
            simp only [List.cons_append, List.append_assoc]
            rw [ih2]
            exact congrArg _ (parseRun_append hpr)
        · rw [parseItems_other hc hb]
          have ih2 := ih r.length (by subst hn; simp) r rfl
          simpa using ih2

theorem parseItems_nonBrace_prefix {u : List Char} (h : ∀ c ∈ u, nonBrace c = true) :
    ∀ s : List Char, parseItems (u ++ s) = (u ++ (parseItems s).1, (parseItems s).2) := by
  induction u with
  | nil => intro s; simp
  | cons c t ih =>
    intro s
    have hc := h c (by simp)
    simp only [nonBrace, Bool.not_eq_true', Bool.or_eq_false_iff, decide_eq_false_iff_not] at hc
    rw [List.cons_append, parseItems_other hc.2 hc.1, ih (fun d hd => h d (by simp [hd]))]
    simp

/-- Helper for the final literal `}` of the outer template regex: if the
unconsumed text after the greedy body starts with a closing brace, return
what follows it. -/
def closeOf : List Char → Option (List Char)
  | [] => none
  | d :: rest => if d = '\x7d' then some rest else none

/-- Attempt of the outer template regex `/{(?:[^}{]|{[^}{]*})*}/s` at the
start of the given text: on success, return the matched span and the text
after it. -/
def matchAt : List Char → Option (List Char × List Char)
  | [] => none
  | c :: r =>
    if c = '\x7b' then
      match closeOf (parseItems r).2 with
      | some rest => some ('\x7b' :: (parseItems r).1 ++ ['\x7d'], rest)
      | none => none
    else none

theorem matchAt_not_open {c : Char} (hc : ¬c = '\x7b') (r : List Char) :
    matchAt (c :: r) = none := by
  rw [matchAt, if_neg hc]

theorem closeOf_some {s rest : List Char} (h : closeOf s = some rest) :
    s = '\x7d' :: rest := by
  cases s with
  | nil => simp [closeOf] at h
  | cons d rr =>
    by_cases hd : d = '\x7d'
    · subst hd
      simp [closeOf] at h
      rw [h]
    · simp [closeOf, hd] at h

theorem matchAt_open_close {r rest : List Char} (h : (parseItems r).2 = '\x7d' :: rest) :
    matchAt ('\x7b' :: r) = some ('\x7b' :: (parseItems r).1 ++ ['\x7d'], rest) := by
  rw [matchAt, if_pos rfl, h]
  simp [closeOf]

theorem matchAt_append {s m rest : List Char} (h : matchAt s = some (m, rest)) :
    m ++ rest = s ∧ 0 < m.length := by
  cases s with
  | nil => simp [matchAt] at h
  | cons c r =>
    by_cases hc : c = '\x7b'
    · rw [matchAt, if_pos hc] at h
      rcases hco : closeOf (parseItems r).2 with _ | rest2
      · rw [hco] at h; simp at h
      · rw [hco] at h
        have h1 : '\x7b' :: (parseItems r).1 ++ ['\x7d'] = m :=
          congrArg Prod.fst (Option.some.inj h)
        have h2 : rest2 = rest := congrArg Prod.snd (Option.some.inj h)
        subst h1; subst h2; subst hc
        refine ⟨?_, by simp⟩
        have h3 := closeOf_some hco
        have happ := parseItems_append r
        rw [h3] at happ
        simp only [List.cons_append, List.append_assoc, List.singleton_append,
          List.nil_append]
        rw [happ]
    · rw [matchAt_not_open hc] at h; simp at h

/-- Collection of all matches of the outer template regex over the
template, in order, as performed by `template.matchAll(...)` in
`renderTemplateText` (`src/unnamed/part_006`, line 172): scan left to
right, and after each match continue after its end; fuel-indexed. -/
def findMatchesF : Nat → List Char → List (List Char)
  | 0, _ => []
  | _ + 1, [] => []
  | f + 1, c :: r =>
    match matchAt (c :: r) with
    | some (m, rest) => m :: findMatchesF f rest
    | none => findMatchesF f r

/-- All regex matches over the template, fuel instantiated to the template
length (which always suffices, see `findMatchesF_congr`). -/
def findMatches (s : List Char) : List (List Char) := findMatchesF s.length s

theorem findMatchesF_succ : ∀ (f : Nat) (s : List Char), s.length ≤ f →
    findMatchesF (f + 1) s = findMatchesF f s := by
  intro f
  induction f with
  | zero =>
    intro s hs
    have : s = [] := List.length_eq_zero.mp (Nat.le_zero.mp hs)
    subst this
    rfl
  | succ f ih =>
    intro s hs
    cases s with
    | nil => rfl
    | cons c r =>
      have hr : r.length ≤ f := by simpa using hs
      rw [findMatchesF, findMatchesF]
      rcases hm : matchAt (c :: r) with _ | ⟨m, rest⟩
      · exact ih r hr
      · have h1 := matchAt_append hm
        have h2 := congrArg List.length h1.1
        simp only [List.length_append, List.length_cons] at h2
        have h3 := h1.2
        have h4 : rest.length ≤ f := by simp at hs; omega
        dsimp only
        rw [ih rest h4]

theorem findMatchesF_congr : ∀ (f : Nat) (s : List Char), s.length ≤ f →
    findMatchesF f s = findMatches s := by
  intro f
  induction f with
  | zero =>
    intro s hs
    have : s = [] := List.length_eq_zero.mp (Nat.le_zero.mp hs)
    subst this
    rfl
  | succ f ih =>
    intro s hs
    rcases Nat.lt_or_ge s.length (f + 1) with h | h
    · have h1 : s.length ≤ f := by omega
      rw [findMatchesF_succ f s h1, ih s h1]
    · have h1 : s.length = f + 1 := by omega
      rw [findMatches, h1]

theorem findMatches_nil : findMatches [] = [] := rfl

theorem findMatches_cons_none {c : Char} {r : List Char} (h : matchAt (c :: r) = none) :
    findMatches (c :: r) = findMatches r := by
  rw [findMatches, List.length_cons, findMatchesF, h]
  rfl

theorem findMatches_cons_some {c : Char} {r m rest : List Char}
    (h : matchAt (c :: r) = some (m, rest)) :
    findMatches (c :: r) = m :: findMatches rest := by
  have h1 := matchAt_append h
  have h2 := congrArg List.length h1.1
  simp only [List.length_append, List.length_cons] at h2
  have h3 := h1.2
  rw [findMatches, List.length_cons, findMatchesF, h]
  dsimp only
  rw [findMatchesF_congr r.length rest (by omega)]

theorem findMatches_no_open {s : List Char} (h : ∀ c ∈ s, ¬c = '\x7b') :
    findMatches s = [] := by
  induction s with
  | nil => rfl
  | cons c r ih =>
    rw [findMatches_cons_none (matchAt_not_open (h c (by simp)) r)]
    exact ih (fun d hd => h d (by simp [hd]))

theorem findMatches_append_no_open {u : List Char} (h : ∀ c ∈ u, ¬c = '\x7b') :
    ∀ s : List Char, findMatches (u ++ s) = findMatches s := by
  induction u with
  | nil => intro s; simp
  | cons c t ih =>
    intro s
    rw [List.cons_append, findMatches_cons_none (matchAt_not_open (h c (by simp)) _)]
    exact ih (fun d hd => h d (by simp [hd])) s

/-- Text of a well-formed depth-two optional-block span
`{pre{tag}suf}` as a character list. -/
def blockSpan (pre tag suf : List Char) : List Char :=
  '\x7b' :: pre ++ '\x7b' :: tag ++ '\x7d' :: suf ++ ['\x7d']

/-- Characters allowed in the fragments of a well-formed optional block for
the purposes of the single-match theorems: no braces (so the outer regex
sees a depth-two span) and no line terminators (so the inner shape regex,
whose dot does not cross lines, can match). -/
def plainChar (c : Char) : Bool :=
  nonBrace c && !(c = '\n' || c = '\r' || c = '\u2028' || c = '\u2029')

theorem plainChar_nonBrace {c : Char} (h : plainChar c = true) : nonBrace c = true := by
  simp only [plainChar, Bool.and_eq_true] at h
  exact h.1

theorem matchAt_blockSpan {pre tag suf : List Char}
    (hpre : ∀ c ∈ pre, nonBrace c = true) (htag : ∀ c ∈ tag, nonBrace c = true)
    (hsuf : ∀ c ∈ suf, nonBrace c = true) (after : List Char) :
    matchAt (blockSpan pre tag suf ++ after) =
      some (blockSpan pre tag suf, after) := by
  have hrun : parseRun (tag ++ '\x7d' :: (suf ++ '\x7d' :: after)) =
      some (tag, suf ++ '\x7d' :: after) := parseRun_nonBrace htag _
  have hblock : parseItems ('\x7b' :: (tag ++ '\x7d' :: (suf ++ '\x7d' :: after))) =
      ('\x7b' :: tag ++ '\x7d' :: (parseItems (suf ++ '\x7d' :: after)).1,
        (parseItems (suf ++ '\x7d' :: after)).2) := parseItems_open_some hrun
  have hsufpart : parseItems (suf ++ '\x7d' :: after) =
      (suf ++ (parseItems ('\x7d' :: after)).1, (parseItems ('\x7d' :: after)).2) :=
    parseItems_nonBrace_prefix hsuf _
  rw [parseItems_close] at hsufpart
  have hpres : parseItems (pre ++ '\x7b' :: (tag ++ '\x7d' :: (suf ++ '\x7d' :: after))) =
      (pre ++ (parseItems ('\x7b' :: (tag ++ '\x7d' :: (suf ++ '\x7d' :: after)))).1,
        (parseItems ('\x7b' :: (tag ++ '\x7d' :: (suf ++ '\x7d' :: after)))).2) :=
    parseItems_nonBrace_prefix hpre _
  rw [hblock] at hpres
  rw [hsufpart] at hpres
  have hspan : blockSpan pre tag suf ++ after =
      '\x7b' :: (pre ++ '\x7b' :: (tag ++ '\x7d' :: (suf ++ '\x7d' :: after))) := by
    simp [blockSpan]
  rw [hspan]
  rw [matchAt_open_close (by rw [hpres])]
  rw [hpres]
  simp [blockSpan]

theorem findMatches_single_blockSpan {before pre tag suf after : List Char}
    (hbefore : ∀ c ∈ before, ¬c = '\x7b') (hafter : ∀ c ∈ after, ¬c = '\x7b')
    (hpre : ∀ c ∈ pre, nonBrace c = true) (htag : ∀ c ∈ tag, nonBrace c = true)
    (hsuf : ∀ c ∈ suf, nonBrace c = true) :
    findMatches (before ++ blockSpan pre tag suf ++ after) = [blockSpan pre tag suf] := by
  rw [List.append_assoc, findMatches_append_no_open hbefore]
  have hm := matchAt_blockSpan hpre htag hsuf after
  have hspan : blockSpan pre tag suf ++ after =
      '\x7b' :: (pre ++ '\x7b' :: (tag ++ '\x7d' :: (suf ++ '\x7d' :: after))) := by
    simp [blockSpan]
  rw [hspan] at hm
  rw [hspan, findMatches_cons_some hm, findMatches_no_open hafter]

/-- Character class `.` (dot) of JavaScript regexes without the `s` flag,
as used by the inner shape regex `/{(.*?){(.*?)}(.*?)}/` on line 180 of
`src/unnamed/part_006`: any character except a line terminator. -/
def isDotChar (c : Char) : Bool := !(c = '\n' || c = '\r' || c = '\u2028' || c = '\u2029')

/-- Lazy match of the tail `(.*?)}` of the inner shape regex (third capture
group followed by the final literal brace): the shortest dot-run followed
by a closing brace. -/
def tryG3 : List Char → Option (List Char × List Char)
  | [] => none
  | c :: r =>
    if c = '\x7d' then some ([], r)
    else if isDotChar c then (tryG3 r).map (fun p => (c :: p.1, p.2))
    else none

/-- Lazy match of `(.*?)}(.*?)}` of the inner shape regex (second capture
group, a literal brace, then the third-group tail).  The second group
prefers the shortest run, but extends across a closing brace when the tail
fails after it, matching the regex engine's backtracking order. -/
def tryG2 : List Char → Option (List Char × List Char × List Char)
  | [] => none
  | c :: r =>
    if c = '\x7d' then
      match tryG3 r with
      | some (g3, rest) => some ([], g3, rest)
      | none =>
        if isDotChar c then (tryG2 r).map (fun p => (c :: p.1, p.2.1, p.2.2)) else none
    else if isDotChar c then (tryG2 r).map (fun p => (c :: p.1, p.2.1, p.2.2))
    else none

/-- Lazy match of `(.*?){(.*?)}(.*?)}` of the inner shape regex (first
capture group, the second literal brace, then the rest).  The first group
prefers the shortest run, extending across an opening brace only when the
rest fails after it. -/
def tryG1 : List Char → Option (List Char × List Char × List Char × List Char)
  | [] => none
  | c :: r =>
    if c = '\x7b' then
      match tryG2 r with
      | some (g2, g3, rest) => some ([], g2, g3, rest)
      | none =>
        if isDotChar c then (tryG1 r).map (fun p => (c :: p.1, p.2)) else none
    else if isDotChar c then (tryG1 r).map (fun p => (c :: p.1, p.2))
    else none

/-- First match of the inner shape regex `/{(.*?){(.*?)}(.*?)}/` over a
captured span, returning the three capture groups, as used by
`match[0].match(...)` on line 180 of `src/unnamed/part_006`.  The regex is
unanchored, so match attempts are made at successive start positions. -/
def structMatch : List Char → Option (List Char × List Char × List Char)
  | [] => none
  | c :: r =>
    if c = '\x7b' then
      match tryG1 r with
      | some (g1, g2, g3, _) => some (g1, g2, g3)
      | none => structMatch r
    else structMatch r

theorem tryG3_plain {suf : List Char} (h : ∀ c ∈ suf, plainChar c = true)
    (s : List Char) : tryG3 (suf ++ '\x7d' :: s) = some (suf, s) := by
  induction suf with
  | nil => simp [tryG3]
  | cons c t ih =>
    have hc := h c (by simp)
    simp only [plainChar, Bool.and_eq_true, nonBrace, Bool.not_eq_true',
      Bool.or_eq_false_iff, decide_eq_false_iff_not] at hc
    rw [List.cons_append, tryG3, if_neg hc.1.2]
    rw [if_pos (by simp [isDotChar, hc.2.1, hc.2.2])]
    rw [ih (fun d hd => h d (by simp [hd]))]
    rfl

theorem tryG2_plain {tag suf : List Char} (htag : ∀ c ∈ tag, plainChar c = true)
    (hsuf : ∀ c ∈ suf, plainChar c = true) (s : List Char) :
    tryG2 (tag ++ '\x7d' :: (suf ++ '\x7d' :: s)) = some (tag, suf, s) := by
  induction tag with
  | nil =>
    rw [List.nil_append, tryG2, if_pos rfl, tryG3_plain hsuf s]
  | cons c t ih =>
    have hc := htag c (by simp)
    simp only [plainChar, Bool.and_eq_true, nonBrace, Bool.not_eq_true',
      Bool.or_eq_false_iff, decide_eq_false_iff_not] at hc
    rw [List.cons_append, tryG2, if_neg hc.1.2]
    rw [if_pos (by simp [isDotChar, hc.2.1, hc.2.2])]
    rw [ih (fun d hd => htag d (by simp [hd]))]
    rfl

theorem tryG1_plain {pre tag suf : List Char} (hpre : ∀ c ∈ pre, plainChar c = true)
    (htag : ∀ c ∈ tag, plainChar c = true) (hsuf : ∀ c ∈ suf, plainChar c = true)
    (s : List Char) :
    tryG1 (pre ++ '\x7b' :: (tag ++ '\x7d' :: (suf ++ '\x7d' :: s))) =
      some (pre, tag, suf, s) := by
  induction pre with
  | nil =>
    rw [List.nil_append, tryG1, if_pos rfl, tryG2_plain htag hsuf s]
  | cons c t ih =>
    have hc := hpre c (by simp)
    simp only [plainChar, Bool.and_eq_true, nonBrace, Bool.not_eq_true',
      Bool.or_eq_false_iff, decide_eq_false_iff_not] at hc
    rw [List.cons_append, tryG1, if_neg hc.1.1]
    rw [if_pos (by simp [isDotChar, hc.2.1, hc.2.2])]
    rw [ih (fun d hd => hpre d (by simp [hd]))]
    rfl

theorem structMatch_blockSpan {pre tag suf : List Char}
    (hpre : ∀ c ∈ pre, plainChar c = true) (htag : ∀ c ∈ tag, plainChar c = true)
    (hsuf : ∀ c ∈ suf, plainChar c = true) :
    structMatch (blockSpan pre tag suf) = some (pre, tag, suf) := by
  have hspan : blockSpan pre tag suf =
      '\x7b' :: (pre ++ '\x7b' :: (tag ++ '\x7d' :: (suf ++ '\x7d' :: []))) := by
    simp [blockSpan]
  rw [hspan, structMatch, if_pos rfl, tryG1_plain hpre htag hsuf []]

/-- Record values fed to the template engine (`GenericObject` in
`src/unnamed/part_006`): either a primitive, represented by its JavaScript
`String(...)` rendering, or an object with named fields and an `extra`
map of typed custom fields.  The source stores `extra` entries as
JSON-encoded strings and decodes them with `JSON.parse`; the model stores
the decoded value directly, which is faithful for every claim here (none
depends on the JSON text encoding itself). -/
inductive JsVal where
  | prim : List Char → JsVal
  | obj : List (List Char × JsVal) → List (List Char × JsVal) → JsVal

/-- Property lookup `obj[key]`, with `none` for a property that is absent
(or `null`/`undefined`, which the source's `?? "?"` treats identically). -/
def lookupField : List (List Char × JsVal) → List Char → Option JsVal
  | [], _ => none
  | (k, v) :: rest, key => if k = key then some v else lookupField rest key

/-- JavaScript `String(value)` as used on line 178 of
`src/unnamed/part_006`: a primitive renders as itself (the model stores
primitives by their rendering), an object as `[object Object]`. -/
def display : JsVal → List Char
  | .prim s => s
  | .obj _ _ => "[object Object]".data

/-- Strict comparison `tagValue === "?"` from line 184 of
`src/unnamed/part_006`.  Only the string `"?"` passes; objects and other
primitives never do. -/
def isSentinel : JsVal → Bool
  | .prim s => decide (s = ['?'])
  | .obj _ _ => false

/-- Tag resolution `getTagValue` (`src/unnamed/part_006`, lines 107-124),
with fuel bounding the recursion depth into nested objects: split the tag
on dots; an `extra.<key>` path reads the decoded custom field (missing key,
including a missing second path segment, yields the sentinel); otherwise
read the first segment (absent or nullish yields the sentinel string), and
when the value is an object recurse with the re-joined tail of the path. -/
def getTagValueF : Nat → List Char → JsVal → JsVal
  | 0, _, _ => .prim ['?']
  | _ + 1, _, .prim _ => .prim ['?']
  | f + 1, tag, .obj fields extra =>
    let parts := tag.splitOn '.'
    if parts.headD [] = "extra".data then
      match parts.drop 1 with
      | [] => .prim ['?']
      | k :: _ =>
        match lookupField extra k with
        | none => .prim ['?']
        | some v => v
    else
      match lookupField fields (parts.headD []) with
      | none => .prim ['?']
      | some (.prim s) => .prim s
      | some (.obj g e) => getTagValueF f (List.intercalate ['.'] (parts.drop 1)) (.obj g e)

mutual

/-- Size of a record value, used as recursion fuel for tag resolution. -/
def jsSize : JsVal → Nat
  | .prim _ => 1
  | .obj fields extra => 1 + jsSizeList fields + jsSizeList extra

/-- Size of a field list of a record value. -/
def jsSizeList : List (List Char × JsVal) → Nat
  | [] => 0
  | (_, v) :: rest => 1 + jsSize v + jsSizeList rest

end

/-- Tag resolution with fuel instantiated to the size of the record, which
bounds the object-nesting depth; the source recursion descends into a
strictly nested object on every step, so this fuel always suffices. -/
def getTagValue (tag : List Char) (v : JsVal) : JsVal := getTagValueF (jsSize v) tag v

/-- ECMAScript `GetSubstitution` as invoked by `String.prototype.replace`
with a string search value: the capture list is empty and named captures
are undefined, so inside the replacement string only `$$` (a literal `$`),
`$&` (the matched text), `$` followed by a backquote (the portion of the
searched string before the match) and `$` followed by a quote (the portion
after the match) are interpreted; `$` followed by a digit finds no capture
and `$<` finds no named captures, so those - like any other `$` - stand
for a literal `$` with scanning resuming at the following character. -/
def getSubstitution (matched before after : List Char) : List Char → List Char
  | [] => []
  | [c] => [c]
  | c :: d :: t =>
    if c = '$' then
      if d = '$' then '$' :: getSubstitution matched before after t
      else if d = '&' then matched ++ getSubstitution matched before after t
      else if d = '\x60' then before ++ getSubstitution matched before after t
      else if d = '\x27' then after ++ getSubstitution matched before after t
      else '$' :: getSubstitution matched before after (d :: t)
    else c :: getSubstitution matched before after (d :: t)

/-- First-occurrence string replacement `renderedText.replace(match, rep)`
as used on lines 178, 185 and 187 of `src/unnamed/part_006`, carrying the
reversed prefix of the searched string so that the replacement can be
expanded by `getSubstitution` with the matched text and its surrounding
context. -/
def replaceFirstAux (pat rep : List Char) : List Char → List Char → List Char
  | acc, [] =>
    if pat.isPrefixOf ([] : List Char) then getSubstitution pat acc.reverse [] rep
    else []
  | acc, c :: r =>
    if pat.isPrefixOf (c :: r) then
      getSubstitution pat acc.reverse ((c :: r).drop pat.length) rep ++
        (c :: r).drop pat.length
    else c :: replaceFirstAux pat rep (c :: acc) r

/-- `renderedText.replace(match, rep)` for a string pattern: replace the
first occurrence of `pat`, expanding `$`-patterns in the replacement per
`getSubstitution`; a string without an occurrence is returned unchanged. -/
def replaceFirst (pat rep s : List Char) : List Char := replaceFirstAux pat rep [] s

/-- Replacement text computed for a single regex match by the loop body of
`renderTemplateText` (`src/unnamed/part_006`, lines 174-191): one opening
brace substitutes the stringified tag value; two opening braces match the
optional-block shape and substitute the empty string on the sentinel and
`prefixText ++ value ++ suffixText` otherwise; any other shape (including a
failed inner shape match) performs no replacement (`none`). -/
def stepRepl (obj : JsVal) (m : List Char) : Option (List Char) :=
  if m.count '\x7b' = 1 then
    some (display (getTagValue (m.filter nonBrace) obj))
  else if m.count '\x7b' = 2 then
    match structMatch m with
    | some (g1, g2, g3) =>
      let v := getTagValue g2 obj
      some (if isSentinel v then [] else g1 ++ display v ++ g3)
    | none => none
  else none

/-- Loop body of `renderTemplateText` for one regex match: perform the
first-occurrence replacement on the evolving output, or leave it unchanged
when the match is skipped. -/
def applyTagMatch (obj : JsVal) (rendered m : List Char) : List Char :=
  match stepRepl obj m with
  | some rep => replaceFirst m rep rendered
  | none => rendered

/-- Template renderer `renderTemplateText` (`src/unnamed/part_006`, lines
170-193): collect all matches of the template regex over the original
template, then fold over them, each step replacing the first occurrence of
the matched text in the evolving output by its computed replacement. -/
def renderTemplateText (template : List Char) (obj : JsVal) : List Char :=
  (findMatches template).foldl (applyTagMatch obj) template

theorem applyTagMatch_some {obj : JsVal} {m rep : List Char}
    (h : stepRepl obj m = some rep) (rendered : List Char) :
    applyTagMatch obj rendered m = replaceFirst m rep rendered := by
  rw [applyTagMatch, h]

theorem applyTagMatch_none {obj : JsVal} {m : List Char}
    (h : stepRepl obj m = none) (rendered : List Char) :
    applyTagMatch obj rendered m = rendered := by
  rw [applyTagMatch, h]

theorem isPrefixOf_self_append (pat w : List Char) : pat.isPrefixOf (pat ++ w) = true := by
  induction pat with
  | nil => simp [List.isPrefixOf]
  | cons c p ih => simp [List.isPrefixOf, ih]

theorem not_isPrefixOf_of_head_ne {p0 c : Char} (h : ¬p0 = c) (pt r : List Char) :
    ¬(p0 :: pt).isPrefixOf (c :: r) = true := by
  simp [List.isPrefixOf]
  intro hc
  exact absurd hc h

theorem getSubstitution_no_dollar (matched before after : List Char) :
    ∀ rep : List Char, '$' ∉ rep → getSubstitution matched before after rep = rep := by
  intro rep
  induction rep with
  | nil => intro _; rfl
  | cons c t ih =>
    intro h
    have hc : ¬c = '$' := fun hcc => h (by simp [hcc])
    have ht : '$' ∉ t := fun hx => h (by simp [hx])
    cases t with
    | nil => rfl
    | cons d t2 => rw [getSubstitution, if_neg hc, ih ht]

theorem replaceFirstAux_head (pat rep acc w : List Char) :
    replaceFirstAux pat rep acc (pat ++ w) =
      getSubstitution pat acc.reverse w rep ++ w := by
  cases hp : pat ++ w with
  | nil =>
    have h1 : pat = [] := by
      cases pat with
      | nil => rfl
      | cons a b => simp at hp
    subst h1
    simp at hp
    subst hp
    simp [replaceFirstAux, List.isPrefixOf]
  | cons c r =>
    rw [replaceFirstAux, if_pos (by rw [← hp]; exact isPrefixOf_self_append pat w)]
    rw [← hp, List.drop_left]

theorem replaceFirstAux_append {pt : List Char} (rep w : List Char) :
    ∀ (u acc : List Char), (∀ c ∈ u, ¬c = '\x7b') →
    replaceFirstAux ('\x7b' :: pt) rep acc (u ++ ('\x7b' :: pt) ++ w) =
      u ++ getSubstitution ('\x7b' :: pt) (acc.reverse ++ u) w rep ++ w := by
  intro u
  induction u with
  | nil =>
    intro acc _
    simpa using replaceFirstAux_head ('\x7b' :: pt) rep acc w
  | cons c t ih =>
    intro acc h
    have hc : ¬ '\x7b' = c := fun hcc => (h c (by simp)) hcc.symm
    have hgoal : (c :: t) ++ ('\x7b' :: pt) ++ w = c :: (t ++ ('\x7b' :: pt) ++ w) := by
      simp
    rw [hgoal, replaceFirstAux, if_neg (not_isPrefixOf_of_head_ne hc _ _),
      ih (c :: acc) (fun d hd => h d (by simp [hd]))]
    simp [List.append_assoc]

theorem replaceFirst_append {u pt : List Char} (h : ∀ c ∈ u, ¬c = '\x7b')
    {rep : List Char} (hd : '$' ∉ rep) (w : List Char) :
    replaceFirst ('\x7b' :: pt) rep (u ++ ('\x7b' :: pt) ++ w) = u ++ rep ++ w := by
  rw [replaceFirst, replaceFirstAux_append rep w u [] h,
    getSubstitution_no_dollar _ _ _ rep hd]

theorem count_open_of_nonBrace {u : List Char} (h : ∀ c ∈ u, nonBrace c = true) :
    u.count '\x7b' = 0 := by
  rw [List.count_eq_zero]
  intro hmem
  have := h '\x7b' hmem
  simp [nonBrace] at this

theorem blockSpan_count_open {pre tag suf : List Char}
    (hpre : ∀ c ∈ pre, nonBrace c = true) (htag : ∀ c ∈ tag, nonBrace c = true)
    (hsuf : ∀ c ∈ suf, nonBrace c = true) :
    (blockSpan pre tag suf).count '\x7b' = 2 := by
  simp only [blockSpan, List.count_cons, List.count_append,
    count_open_of_nonBrace hpre, count_open_of_nonBrace htag, count_open_of_nonBrace hsuf]
  decide

theorem stepRepl_blockSpan {pre tag suf : List Char} (obj : JsVal)
    (hpre : ∀ c ∈ pre, plainChar c = true) (htag : ∀ c ∈ tag, plainChar c = true)
    (hsuf : ∀ c ∈ suf, plainChar c = true) :
    stepRepl obj (blockSpan pre tag suf) =
      some (if isSentinel (getTagValue tag obj) then []
        else pre ++ display (getTagValue tag obj) ++ suf) := by
  have hcount := blockSpan_count_open (fun c hc => plainChar_nonBrace (hpre c hc))
    (fun c hc => plainChar_nonBrace (htag c hc)) (fun c hc => plainChar_nonBrace (hsuf c hc))
  rw [stepRepl, hcount, if_neg (by decide), if_pos rfl,
    structMatch_blockSpan hpre htag hsuf]

/-- Central computation for single-match optional blocks: when the template
is a well-formed depth-two block surrounded by text containing no opening
brace, rendering replaces exactly the block at its position (deleting it on
the sentinel, substituting the resolved prefix-value-suffix otherwise). -/
theorem renderTemplateText_singleBlock {before pre tag suf after : List Char}
    (obj : JsVal)
    (hbefore : ∀ c ∈ before, ¬c = '\x7b') (hafter : ∀ c ∈ after, ¬c = '\x7b')
    (hpre : ∀ c ∈ pre, plainChar c = true) (htag : ∀ c ∈ tag, plainChar c = true)
    (hsuf : ∀ c ∈ suf, plainChar c = true)
    (hrep : '$' ∉ (if isSentinel (getTagValue tag obj) then ([] : List Char)
      else pre ++ display (getTagValue tag obj) ++ suf)) :
    renderTemplateText (before ++ blockSpan pre tag suf ++ after) obj =
      before ++ (if isSentinel (getTagValue tag obj) then []
        else pre ++ display (getTagValue tag obj) ++ suf) ++ after := by
  rw [renderTemplateText,
    findMatches_single_blockSpan hbefore hafter
      (fun c hc => plainChar_nonBrace (hpre c hc))
      (fun c hc => plainChar_nonBrace (htag c hc))
      (fun c hc => plainChar_nonBrace (hsuf c hc)),
    List.foldl_cons, List.foldl_nil,
    applyTagMatch_some (stepRepl_blockSpan obj hpre htag hsuf)]
  have hspan : blockSpan pre tag suf =
      '\x7b' :: (pre ++ '\x7b' :: tag ++ '\x7d' :: suf ++ ['\x7d']) := by
    simp [blockSpan]
  rw [hspan]
  exact replaceFirst_append hbefore hrep after

theorem matchAt_head {s m rest : List Char} (h : matchAt s = some (m, rest)) :
    ∃ pt, m = '\x7b' :: pt := by
  cases s with
  | nil => simp [matchAt] at h
  | cons c r =>
    by_cases hc : c = '\x7b'
    · rw [matchAt, if_pos hc] at h
      rcases hco : closeOf (parseItems r).2 with _ | rest2
      · rw [hco] at h; simp at h
      · rw [hco] at h
        have h1 : '\x7b' :: (parseItems r).1 ++ ['\x7d'] = m :=
          congrArg Prod.fst (Option.some.inj h)
        exact ⟨(parseItems r).1 ++ ['\x7d'], by rw [← h1]; simp⟩
    · rw [matchAt_not_open hc] at h; simp at h

theorem findMatches_mem_head {s m : List Char} (h : m ∈ findMatches s) :
    ∃ pt, m = '\x7b' :: pt := by
  generalize hn : s.length = n
  induction n using Nat.strong_induction_on generalizing s m with
  | _ n ih =>
    cases s with
    | nil => rw [findMatches_nil] at h; simp at h
    | cons c r =>
      rcases hm : matchAt (c :: r) with _ | ⟨m0, rest⟩
      · rw [findMatches_cons_none hm] at h
        exact ih r.length (by subst hn; simp) h rfl
      · rw [findMatches_cons_some hm] at h
        rcases List.mem_cons.mp h with h1 | h1
        · subst h1
          exact matchAt_head hm
        · have hap := matchAt_append hm
          have hlen := congrArg List.length hap.1
          simp only [List.length_append, List.length_cons] at hlen
          have h2 := hap.2
          exact ih rest.length (by subst hn; simp; omega) h1 rfl

/-- Interleaving of inter-match text fragments with match (or substituted)
texts: `interleave [u0, u1, ..., uk] [m1, ..., mk]` is
`u0 ++ m1 ++ u1 ++ ... ++ mk ++ uk`. -/
def interleave : List (List Char) → List (List Char) → List Char
  | [], _ => []
  | u :: _, [] => u
  | u :: us, m :: ms => u ++ m ++ interleave us ms

theorem foldl_applyTagMatch_positional (obj : JsVal) :
    ∀ (ms us : List (List Char)) (P : List Char),
    (∀ c ∈ P, ¬c = '\x7b') →
    us.length = ms.length + 1 →
    (∀ u ∈ us, ∀ c ∈ u, ¬c = '\x7b') →
    (∀ m ∈ ms, ∃ pt, m = '\x7b' :: pt) →
    (∀ m ∈ ms, ∃ rep, stepRepl obj m = some rep ∧
      (∀ c ∈ rep, ¬c = '\x7b') ∧ '$' ∉ rep) →
    List.foldl (applyTagMatch obj) (P ++ interleave us ms) ms =
      P ++ interleave us (ms.map (fun m => (stepRepl obj m).getD m)) := by
  intro ms
  induction ms with
  | nil =>
    intro us P _ _ _ _ _
    simp
  | cons m mt ih =>
    intro us P hP hlen hus hheads hreps
    cases us with
    | nil => simp at hlen
    | cons u ut =>
      obtain ⟨pt, hpt⟩ := hheads m (by simp)
      obtain ⟨rep, hrep, hrepfree, hrepnd⟩ := hreps m (by simp)
      rw [List.foldl_cons, applyTagMatch_some hrep]
      have hPu : ∀ c ∈ P ++ u, ¬c = '\x7b' := by
        intro c hc
        rcases List.mem_append.mp hc with h1 | h1
        · exact hP c h1
        · exact hus u (by simp) c h1
      have hassoc : P ++ interleave (u :: ut) (m :: mt) =
          (P ++ u) ++ m ++ interleave ut mt := by
        rw [interleave]
        simp [List.append_assoc]
      rw [hassoc, hpt, replaceFirst_append hPu hrepnd, ← hpt]
      have hPur : ∀ c ∈ (P ++ u) ++ rep, ¬c = '\x7b' := by
        intro c hc
        rcases List.mem_append.mp hc with h1 | h1
        · exact hPu c h1
        · exact hrepfree c h1
      have hassoc2 : (P ++ u) ++ rep ++ interleave ut mt =
          ((P ++ u) ++ rep) ++ interleave ut mt := by
        simp [List.append_assoc]
      rw [hassoc2,
        ih ut ((P ++ u) ++ rep) hPur (by simpa using hlen)
          (fun v hv => hus v (by simp [hv])) (fun v hv => hheads v (by simp [hv]))
          (fun v hv => hreps v (by simp [hv]))]
      rw [List.map_cons, interleave, hrep]
      simp [List.append_assoc, Option.getD]

theorem foldl_applyTagMatch_none (obj : JsVal) :
    ∀ (ms : List (List Char)) (s : List Char),
    (∀ m ∈ ms, stepRepl obj m = none) →
    List.foldl (applyTagMatch obj) s ms = s := by
  intro ms
  induction ms with
  | nil => intro s _; rfl
  | cons m mt ih =>
    intro s h
    rw [List.foldl_cons, applyTagMatch_none (h m (by simp))]
    exact ih s (fun v hv => h v (by simp [hv]))

/-- The replacement string handed to `String.prototype.replace` is
interpreted, not inserted literally: substituting a value equal to the
`$&` pattern for the block `{p{a}s}` re-inserts the matched block text,
rendering `p{p{a}s}s` rather than a literal `p$&s`. -/
theorem renderTemplateText_dollar_block :
    renderTemplateText "\x7bp\x7ba\x7ds\x7d".data
      (JsVal.obj [("a".data, .prim "$&".data)] []) =
      "p\x7bp\x7ba\x7ds\x7ds".data := by decide

/-- For a depth-one tag the same interpretation makes a `$&` value expand
back to the matched tag text, leaving `x{a}y` unchanged. -/
theorem renderTemplateText_dollar_tag :
    renderTemplateText "x\x7ba\x7dy".data
      (JsVal.obj [("a".data, .prim "$&".data)] []) = "x\x7ba\x7dy".data := by decide

/-- C1 (amended): for every record and every template of the form
`before ++ {pre{tag}suf} ++ after` in which the optional block is the
template's only match (no opening brace outside the block), the fragments
`pre`, `tag`, `suf` contain no braces and no line terminators (so the
block is matched as `{prefix{tag}suffix}`), and neither the fragments nor
the substituted value contain a dollar sign (`replace` expands
`$`-patterns inside its replacement string), rendering deletes the entire
span when the tag resolves to the sentinel `"?"` and otherwise replaces
the span by exactly `prefix ++ value ++ suffix` at its position.  The
unamended claim, quantifying over all templates and records, fails when
another match's substitution injects text equal to this span (see the
counterexample) and when the value contains `$`-patterns
(see `renderTemplateText_dollar_block`). -/
theorem renderTemplateText_optionalBlock_singleMatch
    (before pre tag suf after : List Char) (obj : JsVal)
    (hbefore : ∀ c ∈ before, ¬c = '\x7b') (hafter : ∀ c ∈ after, ¬c = '\x7b')
    (hpre : ∀ c ∈ pre, plainChar c = true) (htag : ∀ c ∈ tag, plainChar c = true)
    (hsuf : ∀ c ∈ suf, plainChar c = true)
    (hdpre : '$' ∉ pre) (hdsuf : '$' ∉ suf)
    (hdval : '$' ∉ display (getTagValue tag obj)) :
    renderTemplateText (before ++ blockSpan pre tag suf ++ after) obj =
      before ++ (if isSentinel (getTagValue tag obj) then []
        else pre ++ display (getTagValue tag obj) ++ suf) ++ after :=
  renderTemplateText_singleBlock obj hbefore hafter hpre htag hsuf (by
    by_cases hs : isSentinel (getTagValue tag obj) = true
    · rw [if_pos hs]
      simp
    · rw [if_neg hs]
      intro hmem
      rcases List.mem_append.mp hmem with h1 | h1
      · rcases List.mem_append.mp h1 with h2 | h2
        · exact hdpre h2
        · exact hdval h2
      · exact hdsuf h1)

/-- C1 witness: the span `{ET: {temp} C}` inside `A {ET: {temp} C} B`
against a record with `temp = "210"` renders to `A ET: 210 C B`. -/
theorem renderTemplateText_optionalBlock_singleMatch_witness :
    renderTemplateText "A \x7bET: \x7btemp\x7d C\x7d B".data
      (JsVal.obj [("temp".data, .prim "210".data)] []) = "A ET: 210 C B".data := by
  have he : "A ".data ++ blockSpan "ET: ".data "temp".data " C".data ++ " B".data =
      "A \x7bET: \x7btemp\x7d C\x7d B".data := by decide
  have h := renderTemplateText_optionalBlock_singleMatch "A ".data "ET: ".data
    "temp".data " C".data " B".data (JsVal.obj [("temp".data, .prim "210".data)] [])
    (by decide) (by decide) (by decide) (by decide) (by decide)
    (by decide) (by decide) (by decide)
  rw [he] at h
  rw [h]
  decide

/-- C1 counterexample: the claim as stated fails.  In the template
`{p{a}s}{b}` the optional block is matched as prefix `p`, tag `a`, suffix
`s`, and against a record with `a = "{b}"` and `b = "Q"` the tag resolves
to the non-sentinel value `{b}`; the claim then demands
`p{b}s` at the block's position followed by the substituted second tag,
i.e. `p{b}sQ` — but the renderer produces `pQs{b}`, because the second
substitution's first-occurrence replacement lands inside the text the
first substitution inserted. -/
theorem renderTemplateText_optionalBlock_interference :
    renderTemplateText "\x7bp\x7ba\x7ds\x7d\x7bb\x7d".data
      (JsVal.obj [("a".data, .prim "\x7bb\x7d".data), ("b".data, .prim "Q".data)] []) =
      "pQs\x7bb\x7d".data ∧
    structMatch "\x7bp\x7ba\x7ds\x7d".data = some ("p".data, "a".data, "s".data) ∧
    isSentinel (getTagValue "a".data
      (JsVal.obj [("a".data, .prim "\x7bb\x7d".data), ("b".data, .prim "Q".data)] [])) =
      false ∧
    ("pQs\x7bb\x7d".data : List Char) ≠ "p\x7bb\x7dsQ".data := by decide

/-- C2 (amended): the match list is computed once, from the original
template; substituted values never add matches or substitution steps.
Moreover, whenever the template text between matches and all substituted
values contain no opening brace and no dollar sign (`replace` expands
`$`-patterns inside its replacement string), no later step can land
inside previously substituted content: the output is exactly the original
template with each match replaced at its own position.  (Without the
brace proviso the claim fails: each step replaces the first occurrence of
its precomputed match text in the evolving string, which can lie inside
substituted content — see the counterexample.  Without the dollar proviso
a substituted `$&` value re-inserts the matched tag text — see
`renderTemplateText_dollar_tag`.) -/
theorem renderTemplateText_positional_of_braceFree
    (template : List Char) (obj : JsVal) (us ms : List (List Char))
    (hms : findMatches template = ms)
    (ht : template = interleave us ms)
    (hlen : us.length = ms.length + 1)
    (hus : ∀ u ∈ us, ∀ c ∈ u, ¬c = '\x7b')
    (hreps : ∀ m ∈ ms, ∃ rep, stepRepl obj m = some rep ∧
      (∀ c ∈ rep, ¬c = '\x7b') ∧ '$' ∉ rep) :
    renderTemplateText template obj =
      interleave us (ms.map (fun m => (stepRepl obj m).getD m)) := by
  have hheads : ∀ m ∈ ms, ∃ pt, m = '\x7b' :: pt := by
    intro m hm
    exact findMatches_mem_head (s := template) (hms ▸ hm)
  rw [renderTemplateText, hms, ht]
  have h := foldl_applyTagMatch_positional obj ms us [] (by simp) hlen hus hheads hreps
  simpa using h

/-- C2 witness: `x{a}y{b}z` against `a = "1"`, `b = "2"` renders
positionally to `x1y2z`. -/
theorem renderTemplateText_positional_witness :
    renderTemplateText "x\x7ba\x7dy\x7bb\x7dz".data
      (JsVal.obj [("a".data, .prim "1".data), ("b".data, .prim "2".data)] []) =
      "x1y2z".data := by
  have h := renderTemplateText_positional_of_braceFree
    "x\x7ba\x7dy\x7bb\x7dz".data
    (JsVal.obj [("a".data, .prim "1".data), ("b".data, .prim "2".data)] [])
    ["x".data, "y".data, "z".data] ["\x7ba\x7d".data, "\x7bb\x7d".data]
    (by decide) (by decide) (by decide) (by decide)
    (by
      intro m hm
      simp only [List.mem_cons, List.not_mem_nil, or_false] at hm
      rcases hm with h1 | h1
      · subst h1
        exact ⟨"1".data, by decide, by decide, by decide⟩
      · subst h1
        exact ⟨"2".data, by decide, by decide, by decide⟩)
  exact h.trans (by decide)

/-- C2 counterexample: the claim as stated fails.  In `{a}{b}` with
`a = "{b}"` and `b = "X"`, the value substituted for `{a}` contains the
tag-shaped span `{b}`, and the later substitution step for the template's
own `{b}` replaces that injected span (first occurrence), yielding `X{b}`
instead of the non-rescanning result `{b}X`. -/
theorem renderTemplateText_rescan_counterexample :
    renderTemplateText "\x7ba\x7d\x7bb\x7d".data
      (JsVal.obj [("a".data, .prim "\x7bb\x7d".data), ("b".data, .prim "X".data)] []) =
      "X\x7bb\x7d".data ∧
    ("X\x7bb\x7d".data : List Char) ≠ "\x7bb\x7dX".data := by decide

/-- C4 (amended): rendering is total on malformed spans, and a span the
matcher captures whose shape the loop rejects — a brace count other than
one or two, or a depth-two span whose inner shape match fails — is never
itself substituted or deleted: when every captured match of the template
is rejected, the template passes through rendering unchanged.  The
unamended per-span claim fails for over-nested spans: a depth-three span
is not captured as a whole, its innermost depth-two subspan is captured
and substituted (see the counterexample). -/
theorem renderTemplateText_skips_malformed
    (template : List Char) (obj : JsVal)
    (h : ∀ m ∈ findMatches template, stepRepl obj m = none) :
    renderTemplateText template obj = template := by
  rw [renderTemplateText]
  exact foldl_applyTagMatch_none obj _ template h

/-- C4 witness: a template consisting of a three-brace sibling span
`{{x}{y}}` and a depth-two span `{a(newline){b}c}` whose inner shape match
fails on the line terminator renders to itself, even though the record
defines `x` and `b`. -/
theorem renderTemplateText_skips_malformed_witness :
    renderTemplateText "\x7b\x7bx\x7d\x7by\x7d\x7d\x7ba\n\x7bb\x7dc\x7d".data
      (JsVal.obj [("x".data, .prim "1".data), ("b".data, .prim "2".data)] []) =
      "\x7b\x7bx\x7d\x7by\x7d\x7d\x7ba\n\x7bb\x7dc\x7d".data :=
  renderTemplateText_skips_malformed _ _ (by decide)

/-- C4 counterexample: the claim as stated fails.  The balanced span
`{a{b{c}d}e}` has three opening braces, so the claim demands it be left
verbatim; but the outer regex does not capture it as a whole — it captures
the inner depth-two span `{b{c}d}`, which is substituted (`c = "V"`),
producing `{abVde}` instead of the original text. -/
theorem renderTemplateText_depth3_not_verbatim :
    renderTemplateText "\x7ba\x7bb\x7bc\x7dd\x7de\x7d".data
      (JsVal.obj [("c".data, .prim "V".data)] []) = "\x7babVde\x7d".data ∧
    ("\x7babVde\x7d".data : List Char) ≠ "\x7ba\x7bb\x7bc\x7dd\x7de\x7d".data := by decide

/-- C10 (amended): the sentinel is indistinguishable from genuine data. In
a single-match context (as in C1), whenever `getTagValue` resolves the
block's tag to the literal string `"?"` — whether because the field is
missing or because the record genuinely stores the value `"?"` — rendering
deletes the entire block, so a stored `"?"` can never appear inside an
optional block's output.  The unamended universal claim fails in
multi-match templates for the same first-occurrence interference as C1
(see the counterexample). -/
theorem renderTemplateText_sentinel_deletes_block
    (before pre tag suf after : List Char) (obj : JsVal)
    (hbefore : ∀ c ∈ before, ¬c = '\x7b') (hafter : ∀ c ∈ after, ¬c = '\x7b')
    (hpre : ∀ c ∈ pre, plainChar c = true) (htag : ∀ c ∈ tag, plainChar c = true)
    (hsuf : ∀ c ∈ suf, plainChar c = true)
    (hsent : isSentinel (getTagValue tag obj) = true) :
    renderTemplateText (before ++ blockSpan pre tag suf ++ after) obj =
      before ++ after := by
  have hrep : '$' ∉ (if isSentinel (getTagValue tag obj) then ([] : List Char)
      else pre ++ display (getTagValue tag obj) ++ suf) := by
    rw [if_pos hsent]
    simp
  rw [renderTemplateText_singleBlock obj hbefore hafter hpre htag hsuf hrep,
    if_pos hsent]
  simp

/-- C10 witness: a record that genuinely stores the string `"?"` in field
`note` — the data is present, yet the block `{N: {note}!}` is deleted
exactly as if the field were missing. -/
theorem renderTemplateText_sentinel_deletes_block_witness :
    renderTemplateText "x\x7bN: \x7bnote\x7d!\x7dy".data
      (JsVal.obj [("note".data, .prim "?".data)] []) = "xy".data := by
  have he : "x".data ++ blockSpan "N: ".data "note".data "!".data ++ "y".data =
      "x\x7bN: \x7bnote\x7d!\x7dy".data := by decide
  have h := renderTemplateText_sentinel_deletes_block "x".data "N: ".data
    "note".data "!".data "y".data (JsVal.obj [("note".data, .prim "?".data)] [])
    (by decide) (by decide) (by decide) (by decide) (by decide) (by decide)
  rw [he] at h
  exact h.trans (by decide)

/-- C10 counterexample: the claim as stated fails.  In `{c}X{p{a}s}` with
`c = "{p{a}s}"` (a genuine string value) and `a` missing, the block's tag
resolves to the sentinel, so the claim demands the block be deleted from
the output (expected `{p{a}s}X`, the substituted first tag followed by
`X`); but the deletion's first-occurrence replacement removes the copy
injected by the first substitution instead, leaving the original block
text in the output: the result is `X{p{a}s}`. -/
theorem renderTemplateText_sentinel_block_not_deleted :
    renderTemplateText "\x7bc\x7dX\x7bp\x7ba\x7ds\x7d".data
      (JsVal.obj [("c".data, .prim "\x7bp\x7ba\x7ds\x7d".data)] []) =
      "X\x7bp\x7ba\x7ds\x7d".data ∧
    isSentinel (getTagValue "a".data
      (JsVal.obj [("c".data, .prim "\x7bp\x7ba\x7ds\x7d".data)] [])) = true ∧
    ("X\x7bp\x7ba\x7ds\x7d".data : List Char) ≠ "\x7bp\x7ba\x7ds\x7dX".data := by decide

/-!
Second part: the filename sanitisation of the export dialog
(`sanitizeFilename`, `src/unnamed/part_008`, lines 278-287): trim the
input; an empty trim yields the empty string; otherwise replace every
disallowed filesystem character (`/[<>:"/\\|?*\x00-\x1F]/`) with `-`,
collapse every whitespace run (`/\s+/`) to a single space, and strip
trailing dots (`/\.+$/`).
-/

/-- JavaScript whitespace, the character set matched both by
`String.prototype.trim` and by the regex class `\s`. -/
def isJsWhitespace (c : Char) : Bool :=
  c = '\t' || c = '\n' || c = '\x0b' || c = '\x0c' || c = '\r' || c = ' ' ||
  c = '\u00a0' || c = '\u1680' ||
  (0x2000 ≤ c.toNat && c.toNat ≤ 0x200a) ||
  c = '\u2028' || c = '\u2029' || c = '\u202f' || c = '\u205f' || c = '\ufeff' ||
  c = '\u3000'

/-- Removal of the maximal whitespace run at the end of a string. -/
def dropTrailingWs : List Char → List Char
  | [] => []
  | c :: r =>
    let r2 := dropTrailingWs r
    if isJsWhitespace c ∧ r2 = [] then [] else c :: r2

/-- JavaScript `value.trim()`: drop whitespace from both ends. -/
def jsTrim (s : List Char) : List Char :=
  dropTrailingWs (s.dropWhile isJsWhitespace)

/-- Character class `[<>:"/\\|?*\x00-\x1F]` of the sanitiser's first
replacement: characters disallowed in filenames. -/
def badFilenameChar (c : Char) : Bool :=
  c = '<' || c = '>' || c = ':' || c = '"' || c = '/' || c = '\\' ||
  c = '|' || c = '?' || c = '*' || c.toNat ≤ 0x1f

/-- Per-character action of `.replace(/[<>:"/\\|?*\x00-\x1F]/g, "-")`. -/
def replaceBad (c : Char) : Char := if badFilenameChar c then '-' else c

/-- One-pass implementation of `.replace(/\s+/g, " ")`: every maximal
whitespace run becomes a single space.  The flag records whether the scan
is inside a run whose space has already been emitted. -/
def collapseWsGo : Bool → List Char → List Char
  | _, [] => []
  | inRun, c :: r =>
    if isJsWhitespace c then
      if inRun then collapseWsGo true r else ' ' :: collapseWsGo true r
    else c :: collapseWsGo false r

/-- Whitespace-run collapse `.replace(/\s+/g, " ")`. -/
def collapseWs (s : List Char) : List Char := collapseWsGo false s

/-- Trailing-dot strip `.replace(/\.+$/g, "")`: remove the maximal run of
dots at the end of the string. -/
def stripTrailingDots : List Char → List Char
  | [] => []
  | c :: r =>
    let r2 := stripTrailingDots r
    if c = '.' ∧ r2 = [] then [] else c :: r2

/-- Filename sanitiser `sanitizeFilename` (`src/unnamed/part_008`, lines
278-287). -/
def sanitizeFilename (value : List Char) : List Char :=
  let trimmed := jsTrim value
  if trimmed = [] then []
  else stripTrailingDots (collapseWs (trimmed.map replaceBad))

theorem mem_stripTrailingDots {z : List Char} {c : Char} (h : c ∈ stripTrailingDots z) :
    c ∈ z := by
  induction z with
  | nil => simp [stripTrailingDots] at h
  | cons d r ih =>
    rw [stripTrailingDots] at h
    by_cases hc : d = '.' ∧ stripTrailingDots r = []
    · rw [if_pos hc] at h; simp at h
    · rw [if_neg hc] at h
      rcases List.mem_cons.mp h with h1 | h1
      · simp [h1]
      · simp [ih h1]

theorem stripTrailingDots_idem (z : List Char) :
    stripTrailingDots (stripTrailingDots z) = stripTrailingDots z := by
  induction z with
  | nil => rfl
  | cons d r ih =>
    rw [stripTrailingDots]
    by_cases hc : d = '.' ∧ stripTrailingDots r = []
    · rw [if_pos hc]; rfl
    · rw [if_neg hc, stripTrailingDots, ih]
      rw [if_neg hc]

theorem stripTrailingDots_cons_ne {d : Char} {r : List Char}
    (h : ¬stripTrailingDots (d :: r) = []) :
    stripTrailingDots (d :: r) = d :: stripTrailingDots r := by
  rw [stripTrailingDots] at h ⊢
  by_cases hc : d = '.' ∧ stripTrailingDots r = []
  · rw [if_pos hc] at h; exact absurd rfl h
  · rw [if_neg hc]

theorem collapseWsGo_length : ∀ (b : Bool) (s : List Char),
    (collapseWsGo b s).length ≤ s.length := by
  intro b s
  induction s generalizing b with
  | nil => simp [collapseWsGo]
  | cons c r ih =>
    rw [collapseWsGo]
    by_cases hc : isJsWhitespace c = true
    · rw [if_pos hc]
      cases b with
      | true => simpa using Nat.le_succ_of_le (ih true)
      | false => simpa using ih true
    · rw [if_neg hc]
      simpa using ih false

theorem mem_collapseWsGo : ∀ (b : Bool) (s : List Char) (c : Char),
    c ∈ collapseWsGo b s → c = ' ' ∨ (c ∈ s ∧ isJsWhitespace c = false) := by
  intro b s
  induction s generalizing b with
  | nil => intro c h; simp [collapseWsGo] at h
  | cons d r ih =>
    intro c h
    rw [collapseWsGo] at h
    by_cases hd : isJsWhitespace d = true
    · rw [if_pos hd] at h
      cases b with
      | true =>
        rcases ih true c h with h1 | h1
        · exact Or.inl h1
        · exact Or.inr ⟨by simp [h1.1], h1.2⟩
      | false =>
        rcases List.mem_cons.mp h with h1 | h1
        · exact Or.inl h1
        · rcases ih true c h1 with h2 | h2
          · exact Or.inl h2
          · exact Or.inr ⟨by simp [h2.1], h2.2⟩
    · rw [if_neg hd] at h
      rcases List.mem_cons.mp h with h1 | h1
      · subst h1
        exact Or.inr ⟨by simp, by simpa using hd⟩
      · rcases ih false c h1 with h2 | h2
        · exact Or.inl h2
        · exact Or.inr ⟨by simp [h2.1], h2.2⟩

theorem collapseWsGo_cons_ws {c : Char} {r : List Char} (h : isJsWhitespace c = true) :
    collapseWsGo true (c :: r) = collapseWsGo true r ∧
    collapseWsGo false (c :: r) = ' ' :: collapseWsGo true r := by
  constructor <;> simp [collapseWsGo, h]

theorem collapseWsGo_cons_nonws {c : Char} {r : List Char}
    (h : isJsWhitespace c = false) (b : Bool) :
    collapseWsGo b (c :: r) = c :: collapseWsGo false r := by
  simp [collapseWsGo, h]

theorem collapseWsGo_idem : ∀ (s : List Char) (b : Bool),
    collapseWsGo b (collapseWsGo b s) = collapseWsGo b s := by
  intro s
  induction s with
  | nil => intro b; rfl
  | cons c r ih =>
    intro b
    by_cases hc : isJsWhitespace c = true
    · cases b with
      | true =>
        rw [(collapseWsGo_cons_ws hc).1]
        exact ih true
      | false =>
        rw [(collapseWsGo_cons_ws hc).2,
          (collapseWsGo_cons_ws (show isJsWhitespace ' ' = true by decide)).2,
          ih true]
    · have hc2 : isJsWhitespace c = false := by simpa using hc
      rw [collapseWsGo_cons_nonws hc2 b, collapseWsGo_cons_nonws hc2 b, ih false]

theorem collapseWsGo_fix_strip : ∀ (z : List Char) (b : Bool),
    collapseWsGo b z = z → collapseWsGo b (stripTrailingDots z) = stripTrailingDots z := by
  intro z
  induction z with
  | nil => intro b _; rfl
  | cons c r ih =>
    intro b hfix
    by_cases hz : stripTrailingDots (c :: r) = []
    · rw [hz]; rfl
    · rw [stripTrailingDots_cons_ne hz]
      by_cases hc : isJsWhitespace c = true
      · cases b with
        | true =>
          exfalso
          rw [(collapseWsGo_cons_ws hc).1] at hfix
          have h1 := collapseWsGo_length true r
          have h2 := congrArg List.length hfix
          simp at h2
          omega
        | false =>
          rw [(collapseWsGo_cons_ws hc).2] at hfix
          have hcs : ' ' = c := (List.cons.injEq _ _ _ _ ▸ hfix).1
          have hrest : collapseWsGo true r = r := (List.cons.injEq _ _ _ _ ▸ hfix).2
          rw [(collapseWsGo_cons_ws hc).2, ih true hrest, hcs]
      · have hc2 : isJsWhitespace c = false := by simpa using hc
        rw [collapseWsGo_cons_nonws hc2 b] at hfix
        have hrest : collapseWsGo false r = r := (List.cons.injEq _ _ _ _ ▸ hfix).2
        rw [collapseWsGo_cons_nonws hc2 b, ih false hrest]

theorem dropTrailingWs_cons_ne {d : Char} {r : List Char}
    (h : ¬dropTrailingWs (d :: r) = []) :
    dropTrailingWs (d :: r) = d :: dropTrailingWs r := by
  rw [dropTrailingWs] at h ⊢
  by_cases hc : isJsWhitespace d = true ∧ dropTrailingWs r = []
  · rw [if_pos hc] at h; exact absurd rfl h
  · rw [if_neg hc]

theorem dropTrailingWs_eq_self : ∀ z : List Char,
    (∀ l, z.getLast? = some l → isJsWhitespace l = false) → dropTrailingWs z = z := by
  intro z
  induction z with
  | nil => intro _; rfl
  | cons c r ih =>
    intro h
    cases r with
    | nil =>
      have hc := h c (by simp)
      rw [dropTrailingWs]
      rw [if_neg (by simp [hc])]
      rfl
    | cons d r' =>
      have hlast : ∀ l, (d :: r').getLast? = some l → isJsWhitespace l = false := by
        intro l hl
        apply h
        rw [List.getLast?_cons_cons]
        exact hl
      have ihr := ih hlast
      rw [dropTrailingWs]
      rw [if_neg (by rw [ihr]; simp)]
      rw [ihr]

theorem dropWhile_head_false {p : Char → Bool} : ∀ (l : List Char) {d : Char} {u : List Char},
    l.dropWhile p = d :: u → p d = false := by
  intro l
  induction l with
  | nil => intro d u h; simp at h
  | cons c r ih =>
    intro d u h
    by_cases hc : p c = true
    · rw [List.dropWhile_cons, if_pos hc] at h
      exact ih h
    · rw [List.dropWhile_cons, if_neg hc] at h
      have h1 : c = d := (List.cons.injEq _ _ _ _ ▸ h).1
      rw [← h1]
      simpa using hc

theorem mem_of_getLast? : ∀ {l : List Char} {a : Char}, l.getLast? = some a → a ∈ l := by
  intro l
  induction l with
  | nil => intro a h; simp at h
  | cons c r ih =>
    intro a h
    cases r with
    | nil => simp at h; simp [h]
    | cons d r' =>
      rw [List.getLast?_cons_cons] at h
      exact List.mem_cons_of_mem _ (ih h)

theorem replaceBad_not_bad (c : Char) : badFilenameChar (replaceBad c) = false := by
  by_cases h : badFilenameChar c = true
  · rw [replaceBad, if_pos h]; decide
  · rw [replaceBad, if_neg h]; simpa using h

theorem replaceBad_idem (c : Char) : replaceBad (replaceBad c) = replaceBad c := by
  by_cases h : badFilenameChar c = true
  · have h1 : replaceBad c = '-' := by rw [replaceBad, if_pos h]
    rw [h1]; decide
  · have h1 : replaceBad c = c := by rw [replaceBad, if_neg h]
    rw [h1, h1]

theorem replaceBad_ws (c : Char) (h : isJsWhitespace c = false) :
    isJsWhitespace (replaceBad c) = false := by
  by_cases hb : badFilenameChar c = true
  · rw [replaceBad, if_pos hb]; decide
  · rw [replaceBad, if_neg hb]; exact h

theorem mapReplaceBad_eq_self : ∀ (l : List Char), (∀ c ∈ l, replaceBad c = c) →
    l.map replaceBad = l := by
  intro l
  induction l with
  | nil => intro _; rfl
  | cons c r ih =>
    intro h
    rw [List.map_cons, h c (by simp), ih (fun d hd => h d (by simp [hd]))]

theorem sanitizeFilename_eq_nil {x : List Char} (h : jsTrim x = []) :
    sanitizeFilename x = [] := by
  simp [sanitizeFilename, h]

theorem sanitizeFilename_eq_of_ne {x : List Char} (h : ¬jsTrim x = []) :
    sanitizeFilename x = stripTrailingDots (collapseWs ((jsTrim x).map replaceBad)) := by
  simp [sanitizeFilename, h]

/-- C3 (amended): `sanitizeFilename` is idempotent on every input whose
sanitised form does not end in a space: stripping trailing dots is the only
step that can expose a trailing space (the dots hid it from the trim), and
when it does not, a second application finds a string it maps to itself.
The unamended claim fails exactly on those inputs — see the
counterexample `"a ."`. -/
theorem sanitizeFilename_idempotent_of_no_trailing_space (x : List Char)
    (hlast : (sanitizeFilename x).getLast? ≠ some ' ') :
    sanitizeFilename (sanitizeFilename x) = sanitizeFilename x := by
  by_cases ht : jsTrim x = []
  · rw [sanitizeFilename_eq_nil ht]
    rfl
  · set y := sanitizeFilename x with hy
    have hyeq : y = stripTrailingDots (collapseWs ((jsTrim x).map replaceBad)) :=
      sanitizeFilename_eq_of_ne ht
    by_cases hynil : y = []
    · rw [hynil]; rfl
    · have hmem : ∀ c ∈ y, c = ' ' ∨ (isJsWhitespace c = false ∧ replaceBad c = c) := by
        intro c hc
        rw [hyeq] at hc
        have hc2 := mem_stripTrailingDots hc
        rw [collapseWs] at hc2
        rcases mem_collapseWsGo false _ c hc2 with h1 | h1
        · exact Or.inl h1
        · refine Or.inr ⟨h1.2, ?_⟩
          rcases List.mem_map.mp h1.1 with ⟨d, _, hd⟩
          rw [← hd]
          exact replaceBad_idem d
      have hmem2 : ∀ c ∈ y, replaceBad c = c := by
        intro c hc
        rcases hmem c hc with h1 | h1
        · rw [h1]; decide
        · exact h1.2
      have hws : ∀ c ∈ y, isJsWhitespace c = true → c = ' ' := by
        intro c hc hw
        rcases hmem c hc with h1 | h1
        · exact h1
        · rw [h1.1] at hw
          exact absurd hw (by simp)
      have hlasty : ∀ l, y.getLast? = some l → isJsWhitespace l = false := by
        intro l hl
        by_cases hwl : isJsWhitespace l = true
        · have hsp := hws l (mem_of_getLast? hl) hwl
          rw [hsp] at hl
          exact absurd hl hlast
        · simpa using hwl
      have hhead : ∀ h, y.head? = some h → isJsWhitespace h = false := by
        intro h hh
        rcases hu : x.dropWhile isJsWhitespace with _ | ⟨d, u'⟩
        · exact absurd (by rw [jsTrim, hu]; rfl) ht
        · have hd : isJsWhitespace d = false := dropWhile_head_false x hu
          have htd : jsTrim x = d :: dropTrailingWs u' := by
            rw [jsTrim, hu]
            exact dropTrailingWs_cons_ne (by rw [jsTrim, hu] at ht; exact ht)
          have hzd : collapseWs ((jsTrim x).map replaceBad) =
              replaceBad d :: collapseWsGo false ((dropTrailingWs u').map replaceBad) := by
            rw [htd, List.map_cons, collapseWs]
            exact collapseWsGo_cons_nonws (replaceBad_ws d hd) false
          have hyd : y = replaceBad d ::
              stripTrailingDots (collapseWsGo false ((dropTrailingWs u').map replaceBad)) := by
            rw [hyeq, hzd]
            exact stripTrailingDots_cons_ne (by rw [hyeq, hzd] at hynil; exact hynil)
          rw [hyd] at hh
          simp at hh
          rw [← hh]
          exact replaceBad_ws d hd
      have htrim : jsTrim y = y := by
        rw [jsTrim]
        have hdw : y.dropWhile isJsWhitespace = y := by
          cases hyc : y with
          | nil => simp
          | cons c r =>
            have hhc : isJsWhitespace c = false := hhead c (by rw [hyc]; rfl)
            simp [List.dropWhile_cons, hhc]
        rw [hdw]
        exact dropTrailingWs_eq_self y hlasty
      have hcolly : collapseWs y = y := by
        rw [hyeq, collapseWs, collapseWs]
        exact collapseWsGo_fix_strip _ false (collapseWsGo_idem _ false)
      have hstripy : stripTrailingDots y = y := by
        rw [hyeq]
        exact stripTrailingDots_idem _
      have hmapy : y.map replaceBad = y := mapReplaceBad_eq_self y hmem2
      rw [sanitizeFilename_eq_of_ne (x := y) (by rw [htrim]; exact hynil)]
      rw [htrim, hmapy, hcolly, hstripy]

/-- C3 witness: the input `"  a<b:c.. "` sanitises to `"a-b-c"`, which does
not end in a space, and a second sanitisation leaves it unchanged. -/
theorem sanitizeFilename_idempotent_witness :
    (sanitizeFilename "  a<b:c.. ".data).getLast? ≠ some ' ' ∧
    sanitizeFilename (sanitizeFilename "  a<b:c.. ".data) =
      sanitizeFilename "  a<b:c.. ".data ∧
    sanitizeFilename "  a<b:c.. ".data = "a-b-c".data :=
  ⟨by decide,
    sanitizeFilename_idempotent_of_no_trailing_space "  a<b:c.. ".data (by decide),
    by decide⟩

/-- C3 counterexample: the claim as stated fails.  Sanitising `"a ."`
yields `"a "` (the trailing dot is stripped, exposing a space the initial
trim could not see), and sanitising again yields `"a"` — so
`sanitize(sanitize(x))` differs from `sanitize(x)`. -/
theorem sanitizeFilename_not_idempotent :
    sanitizeFilename "a .".data = "a ".data ∧
    sanitizeFilename (sanitizeFilename "a .".data) = "a".data ∧
    sanitizeFilename (sanitizeFilename "a .".data) ≠ sanitizeFilename "a .".data := by
  decide

/-!
Third part: unique export filenames (`getUniqueExportItems`,
`src/unnamed/part_008`, lines 289-323).  The loop deduplicates
structurally-equal DOM nodes (modelled by a numeric node identity), derives
a base name from the item's `data-aml-name` (falling back to
`label-<idx>` when the raw or sanitised name is empty), and resolves
collisions by appending `String(nameSuffix).padStart(2, "0")` for the
smallest free suffix.
-/

/-- Decimal rendering of a natural number, as JavaScript `String(n)`:
most significant digit first, computed by repeated division with explicit
fuel (the value itself bounds the number of digits generously). -/
def natStrF : Nat → Nat → List Char
  | 0, _ => []
  | fuel + 1, n =>
    if n < 10 then [Nat.digitChar n]
    else natStrF fuel (n / 10) ++ [Nat.digitChar (n % 10)]

/-- Decimal rendering `String(n)`. -/
def natStr (n : Nat) : List Char := natStrF (n + 1) n

/-- Decimal parse, a left inverse to `natStr` used to prove injectivity of
the generated suffixes. -/
def strNat (s : List Char) : Nat :=
  s.foldl (fun acc c => acc * 10 + (c.toNat - 48)) 0

theorem digitChar_toNat {d : Nat} (h : d < 10) : (Nat.digitChar d).toNat = 48 + d := by
  interval_cases d <;> decide

theorem strNat_append_digit (A : List Char) (c : Char) :
    strNat (A ++ [c]) = strNat A * 10 + (c.toNat - 48) := by
  rw [strNat, strNat, List.foldl_append]
  rfl

theorem strNat_natStrF : ∀ (fuel n : Nat), n < fuel → strNat (natStrF fuel n) = n := by
  intro fuel
  induction fuel with
  | zero => intro n h; omega
  | succ fuel ih =>
    intro n h
    rw [natStrF]
    by_cases hn : n < 10
    · rw [if_pos hn, strNat]
      simp [digitChar_toNat hn]
    · rw [if_neg hn, strNat_append_digit, ih (n / 10) (by omega),
        digitChar_toNat (Nat.mod_lt n (by omega))]
      omega

theorem strNat_natStr (n : Nat) : strNat (natStr n) = n :=
  strNat_natStrF (n + 1) n (by omega)

/-- JavaScript `s.padStart(2, "0")`. -/
def padStart2 (s : List Char) : List Char :=
  if s.length < 2 then List.replicate (2 - s.length) '0' ++ s else s

theorem foldl_strNat_zeros : ∀ m : Nat,
    List.foldl (fun acc c => acc * 10 + (c.toNat - 48)) 0 (List.replicate m '0') = 0 := by
  intro m
  induction m with
  | zero => rfl
  | succ m ih => simpa [List.replicate_succ] using ih

theorem strNat_padStart2 (s : List Char) : strNat (padStart2 s) = strNat s := by
  rw [padStart2]
  by_cases h : s.length < 2
  · rw [if_pos h, strNat, List.foldl_append, foldl_strNat_zeros]
    rfl
  · rw [if_neg h]

theorem padStart2_length (s : List Char) : 2 ≤ (padStart2 s).length ∨ padStart2 s = s := by
  rw [padStart2]
  by_cases h : s.length < 2
  · rw [if_pos h]
    left
    simp
    omega
  · rw [if_neg h]
    right
    rfl

/-- Collision suffix `String(n).padStart(2, "0")` from line 315 of
`src/unnamed/part_008`. -/
def pad2 (n : Nat) : List Char := padStart2 (natStr n)

theorem strNat_pad2 (n : Nat) : strNat (pad2 n) = n := by
  rw [pad2, strNat_padStart2, strNat_natStr]

theorem pad2_length (n : Nat) : 2 ≤ (pad2 n).length := by
  rw [pad2, padStart2]
  by_cases h : (natStr n).length < 2
  · rw [if_pos h]
    simp
    omega
  · rw [if_neg h]
    omega

/-- Candidate names tried by the collision loop: the bare base first, then
`base ++ pad2 k` for `k = 1, 2, ...`. -/
def candidate (base : List Char) : Nat → List Char
  | 0 => base
  | k + 1 => base ++ pad2 (k + 1)

theorem candidate_inj {base : List Char} : ∀ {i j : Nat},
    candidate base i = candidate base j → i = j := by
  intro i j h
  cases i with
  | zero =>
    cases j with
    | zero => rfl
    | succ j =>
      exfalso
      have hlen := congrArg List.length h
      have h2 := pad2_length (j + 1)
      simp only [candidate, List.length_append] at hlen
      omega
  | succ i =>
    cases j with
    | zero =>
      exfalso
      have hlen := congrArg List.length h
      have h2 := pad2_length (i + 1)
      simp only [candidate, List.length_append] at hlen
      omega
    | succ j =>
      have hdrop := congrArg (List.drop base.length) h
      rw [candidate, candidate, List.drop_left, List.drop_left] at hdrop
      have := congrArg strNat hdrop
      rw [strNat_pad2, strNat_pad2] at this
      omega

/-- Search of the collision `while` loop (`src/unnamed/part_008`, lines
312-317): starting from the bare base name and then suffixed candidates in
order, return the first one not yet used.  The fuel (one more than the
number of used names) always suffices, because the candidates are pairwise
distinct and `used` is finite. -/
def pickNameAux (used : List (List Char)) (base : List Char) : Nat → Nat → List Char
  | 0, k => candidate base k
  | fuel + 1, k =>
    if candidate base k ∈ used then pickNameAux used base fuel (k + 1)
    else candidate base k

/-- First free candidate name, as computed by the collision loop. -/
def pickName (used : List (List Char)) (base : List Char) : List Char :=
  pickNameAux used base (used.length + 1) 0

/-- One exportable label in the preview DOM: `node` stands for the DOM
element's identity up to `isEqualNode` (structurally equal nodes share the
number), `amlName` is the element's `data-aml-name` (the empty string when
the attribute is empty, which JavaScript treats as falsy). -/
structure ExportItem where
  node : Nat
  amlName : List Char
deriving DecidableEq

/-- Fallback name `label-<idx>` used for items with no usable name. -/
def labelFallback (idx : Nat) : List Char := "label-".data ++ natStr idx

/-- Loop of `getUniqueExportItems` (`src/unnamed/part_008`, lines 289-323)
with its state made explicit: already-printed node identities, used names,
and the 1-based index of the next kept item. -/
def getUniqueExportItemsGo :
    List ExportItem → List Nat → List (List Char) → Nat → List (ExportItem × List Char)
  | [], _, _, _ => []
  | it :: rest, printed, used, idx =>
    if it.node ∈ printed then getUniqueExportItemsGo rest printed used idx
    else
      let rawName := if it.amlName = [] then labelFallback idx else it.amlName
      let baseName :=
        if sanitizeFilename rawName = [] then labelFallback idx else sanitizeFilename rawName
      let safeName := pickName used baseName
      (it, safeName) :: getUniqueExportItemsGo rest (it.node :: printed) (safeName :: used) (idx + 1)

/-- Deduplicated export items with collision-free filenames
(`getUniqueExportItems`, `src/unnamed/part_008`). -/
def getUniqueExportItems (items : List ExportItem) : List (ExportItem × List Char) :=
  getUniqueExportItemsGo items [] [] 1

theorem pickNameAux_spec {used : List (List Char)} {base : List Char} {k : Nat}
    (hused : ∀ s, s ∈ used ↔ ∃ j, j < k ∧ s = candidate base j) :
    ∀ (fuel j : Nat), j ≤ k → k + 1 ≤ fuel + j →
    pickNameAux used base fuel j = candidate base k := by
  intro fuel
  induction fuel with
  | zero =>
    intro j h1 h2
    omega
  | succ fuel ih =>
    intro j h1 h2
    rw [pickNameAux]
    by_cases hj : j = k
    · subst hj
      rw [if_neg (by
        rw [hused]
        rintro ⟨i, hik, hie⟩
        exact absurd (candidate_inj hie.symm) (by omega))]
    · have hjk : j < k := by omega
      rw [if_pos ((hused _).mpr ⟨j, hjk, rfl⟩)]
      exact ih (j + 1) (by omega) (by omega)

theorem pickName_spec {used : List (List Char)} {base : List Char} {k : Nat}
    (hused : ∀ s, s ∈ used ↔ ∃ j, j < k ∧ s = candidate base j)
    (hlen : used.length = k) :
    pickName used base = candidate base k := by
  rw [pickName, hlen]
  exact pickNameAux_spec hused (k + 1) 0 (by omega) (by omega)

theorem getUniqueExportItemsGo_names {b : List Char} (hb : ¬b = []) :
    ∀ (its : List ExportItem) (printed : List Nat) (used : List (List Char)) (idx k : Nat),
    (∀ it ∈ its, it.node ∉ printed) →
    (its.map ExportItem.node).Nodup →
    (∀ it ∈ its, ¬it.amlName = [] ∧ sanitizeFilename it.amlName = b) →
    (∀ s, s ∈ used ↔ ∃ j, j < k ∧ s = candidate b j) →
    used.length = k →
    (getUniqueExportItemsGo its printed used idx).map Prod.snd =
      (List.range' k its.length).map (candidate b) := by
  intro its
  induction its with
  | nil =>
    intro printed used idx k _ _ _ _ _
    simp [getUniqueExportItemsGo]
  | cons it rest ih =>
    intro printed used idx k hprint hnodup hnames hused hlen
    rw [getUniqueExportItemsGo]
    rw [if_neg (hprint it (by simp))]
    obtain ⟨hraw, hsan⟩ := hnames it (by simp)
    rw [if_neg hraw]
    dsimp only
    rw [hsan, if_neg hb]
    rw [pickName_spec hused hlen]
    rw [List.map_cons]
    have hnodup2 : (rest.map ExportItem.node).Nodup := by
      rw [List.map_cons] at hnodup
      exact hnodup.of_cons
    have hprint2 : ∀ v ∈ rest, v.node ∉ it.node :: printed := by
      intro v hv
      simp only [List.mem_cons]
      rintro (h1 | h1)
      · rw [List.map_cons] at hnodup
        have := hnodup.not_mem
        exact this (h1 ▸ List.mem_map_of_mem ExportItem.node hv)
      · exact hprint v (by simp [hv]) h1
    have hused2 : ∀ s, s ∈ candidate b k :: used ↔ ∃ j, j < k + 1 ∧ s = candidate b j := by
      intro s
      simp only [List.mem_cons]
      constructor
      · rintro (h1 | h1)
        · exact ⟨k, by omega, h1⟩
        · obtain ⟨j, hj, hje⟩ := (hused s).mp h1
          exact ⟨j, by omega, hje⟩
      · rintro ⟨j, hj, hje⟩
        by_cases hjk : j = k
        · exact Or.inl (hjk ▸ hje)
        · exact Or.inr ((hused s).mpr ⟨j, by omega, hje⟩)
    rw [ih (it.node :: printed) (candidate b k :: used) (idx + 1) (k + 1) hprint2 hnodup2
      (fun v hv => hnames v (by simp [hv])) hused2 (by simp [hlen])]
    rw [List.length_cons, List.range'_succ, List.map_cons]

/-- C5: for every export of items with pairwise distinct node identities
whose raw names all sanitise to the same non-empty base name `b`, the
unique-item naming algorithm produces pairwise distinct filenames: the
first item keeps the unsuffixed base, and the k-th subsequent item gets
the base with the zero-padded decimal suffix `padStart(2, "0")` of `k`
appended (`01`, `02`, ...). -/
theorem getUniqueExportItems_collision_suffixes
    (items : List ExportItem) (b : List Char) (hb : ¬b = [])
    (hnodup : (items.map ExportItem.node).Nodup)
    (hnames : ∀ it ∈ items, ¬it.amlName = [] ∧ sanitizeFilename it.amlName = b) :
    (getUniqueExportItems items).map Prod.snd =
      (List.range items.length).map (candidate b) ∧
    ((getUniqueExportItems items).map Prod.snd).Nodup := by
  have h := getUniqueExportItemsGo_names hb items [] [] 1 0 (by simp) hnodup hnames
    (by simp) rfl
  rw [getUniqueExportItems, h]
  refine ⟨by rw [List.range_eq_range'], ?_⟩
  exact (List.nodup_range' 0 items.length).map (by
    intro i j hij
    exact candidate_inj hij)

/-- C5 witness: three distinct items all named `a<b` (which sanitises to
`a-b`) export as `a-b`, `a-b01`, `a-b02`, pairwise distinct. -/
theorem getUniqueExportItems_collision_suffixes_witness :
    (getUniqueExportItems
        [⟨0, "a<b".data⟩, ⟨1, "a<b".data⟩, ⟨2, "a<b".data⟩]).map Prod.snd =
      ["a-b".data, "a-b01".data, "a-b02".data] ∧
    ((getUniqueExportItems
        [⟨0, "a<b".data⟩, ⟨1, "a<b".data⟩, ⟨2, "a<b".data⟩]).map Prod.snd).Nodup := by
  have h := getUniqueExportItems_collision_suffixes
    [⟨0, "a<b".data⟩, ⟨1, "a<b".data⟩, ⟨2, "a<b".data⟩] "a-b".data
    (by decide) (by decide) (by decide)
  exact ⟨h.1.trans (by decide), h.2⟩

/-!
Fourth part: the title auto-fit algorithm
(`src/client/src/pages/printing/titleTextBlock.tsx`, lines 34-67).
Numbers are modelled as exact rationals; `toFixed` rounds to nearest with
ties away from zero on the positive values that occur here, which matches
Mathlib's `round` (half-up).
-/

/-- Rounding of `Number(q.toFixed(4))` for the non-negative values the
algorithm produces. -/
def round4 (q : ℚ) : ℚ := (round (q * 10000) : ℤ) / 10000

/-- Rounding of `Number(q.toFixed(1))` for the non-negative values the
algorithm produces. -/
def round1 (q : ℚ) : ℚ := (round (q * 10) : ℤ) / 10

/-- Unrounded trial scale of one auto-fit pass
(`titleTextBlock.tsx`, lines 56-58): divide the measured width by the
current scale (floored at 1/10000) to recover the unscaled content width,
and scale to the available width, capped at 1. -/
def nextScaleRaw (availableWidth neededWidth scale : ℚ) : ℚ :=
  min 1 (availableWidth / max (neededWidth / max scale (1 / 10000)) 1)

/-- Scale stored by one run of the layout effect
(`titleTextBlock.tsx`, lines 34-61): 1 when fit-to-width is off or a
measurement is non-positive, otherwise the trial scale, guarded against 0
before rounding and normalised to 4 decimal places. -/
def nextScaleUpdate (fitToWidth : Bool) (availableWidth neededWidth scale : ℚ) : ℚ :=
  if ¬fitToWidth then 1
  else if availableWidth ≤ 0 then 1
  else if neededWidth ≤ 0 then 1
  else
    round4 (if 0 < nextScaleRaw availableWidth neededWidth scale then
      nextScaleRaw availableWidth neededWidth scale else 1)

/-- Effective text size in millimetres reported to the listener
(`titleTextBlock.tsx`, line 63). -/
def effectiveSizeMm (fitToWidth : Bool) (maxTextSizeMm scale : ℚ) : ℚ :=
  if fitToWidth then round1 (maxTextSizeMm * scale) else round1 maxTextSizeMm

theorem round4_mono {x y : ℚ} (h : x ≤ y) : round4 x ≤ round4 y := by
  rw [round4, round4]
  rw [div_le_div_iff_of_pos_right (by norm_num)]
  have h2 : round (x * 10000) ≤ round (y * 10000) := by
    rw [round_eq, round_eq]
    exact Int.floor_mono (by linarith)
  exact_mod_cast h2

theorem nextScaleUpdate_unfold {aw : ℚ} (haw : 0 < aw) {n : ℚ} (hn : ¬n ≤ 0) (s : ℚ) :
    nextScaleUpdate true aw n s =
      round4 (if 0 < nextScaleRaw aw n s then nextScaleRaw aw n s else 1) := by
  rw [nextScaleUpdate, if_neg (by simp), if_neg (not_le.mpr haw), if_neg hn]

theorem nextScaleUpdate_nonpos {aw : ℚ} (haw : 0 < aw) {n : ℚ} (hn : n ≤ 0) (s : ℚ) :
    nextScaleUpdate true aw n s = 1 := by
  rw [nextScaleUpdate, if_neg (by simp), if_neg (not_le.mpr haw), if_pos hn]

theorem round4_zero : round4 0 = 0 := by
  rw [round4]
  norm_num

theorem round4_one : round4 1 = 1 := by
  rw [round4]
  norm_num

theorem nextScaleRaw_pos {a n s : ℚ} (ha : 0 < a) : 0 < nextScaleRaw a n s := by
  rw [nextScaleRaw]
  have hd : (0 : ℚ) < max (n / max s (1 / 10000)) 1 :=
    lt_of_lt_of_le one_pos (le_max_right _ _)
  exact lt_min one_pos (div_pos ha hd)

theorem nextScaleRaw_le_one (a n s : ℚ) : nextScaleRaw a n s ≤ 1 :=
  min_le_left _ _

/-- C6 (amended): the unrounded trial scale lies in (0, 1] whenever the
available width is positive.  The stored (4-decimal-rounded) scale lies in
[0, 1] — rounding can flatten a tiny positive trial scale to exactly 0,
so the claimed lower bound "> 0" fails after rounding (see the
counterexample).  For positive available widths and fixed content the
stored scale is monotone non-increasing as the available width shrinks
(shrinking all the way to a non-positive width resets the scale to 1, so
the monotonicity claim also needs positivity).  The reported effective
size can exceed `maxMm` by the rounding step, but never by more than
0.05 mm. -/
theorem titleAutoFit_scale_bounds_mono
    (a a' n s m s2 : ℚ) (ha : 0 < a) (ha' : 0 < a') (haa : a' ≤ a)
    (hm : 0 ≤ m) (_hs2l : 0 ≤ s2) (hs2r : s2 ≤ 1) :
    0 < nextScaleRaw a n s ∧ nextScaleRaw a n s ≤ 1 ∧
    0 ≤ nextScaleUpdate true a n s ∧ nextScaleUpdate true a n s ≤ 1 ∧
    nextScaleUpdate true a' n s ≤ nextScaleUpdate true a n s ∧
    effectiveSizeMm true m s2 ≤ m + 1 / 20 := by
  have hbounds : ∀ aw : ℚ, 0 < aw →
      0 ≤ nextScaleUpdate true aw n s ∧ nextScaleUpdate true aw n s ≤ 1 := by
    intro aw haw
    by_cases hn : n ≤ 0
    · rw [nextScaleUpdate_nonpos haw hn s]
      norm_num
    · rw [nextScaleUpdate_unfold haw hn s]
      rw [if_pos (nextScaleRaw_pos (n := n) (s := s) haw)]
      constructor
      · have h1 : round4 0 ≤ round4 (nextScaleRaw aw n s) :=
          round4_mono (le_of_lt (nextScaleRaw_pos haw))
        rw [round4_zero] at h1
        exact h1
      · have h1 : round4 (nextScaleRaw aw n s) ≤ round4 1 :=
          round4_mono (nextScaleRaw_le_one aw n s)
        rw [round4_one] at h1
        exact h1
  refine ⟨nextScaleRaw_pos ha, nextScaleRaw_le_one a n s,
    (hbounds a ha).1, (hbounds a ha).2, ?_, ?_⟩
  · by_cases hn : n ≤ 0
    · rw [nextScaleUpdate_nonpos ha hn s, nextScaleUpdate_nonpos ha' hn s]
    · rw [nextScaleUpdate_unfold ha hn s, nextScaleUpdate_unfold ha' hn s,
        if_pos (nextScaleRaw_pos (n := n) (s := s) ha),
        if_pos (nextScaleRaw_pos (n := n) (s := s) ha')]
      apply round4_mono
      rw [nextScaleRaw, nextScaleRaw]
      have hd : (0 : ℚ) < max (n / max s (1 / 10000)) 1 :=
        lt_of_lt_of_le one_pos (le_max_right _ _)
      exact min_le_min (le_refl 1) ((div_le_div_iff_of_pos_right hd).mpr haa)
  · rw [effectiveSizeMm, if_pos rfl, round1]
    have hround : (round (m * s2 * 10) : ℚ) ≤ m * s2 * 10 + 1 / 2 := by
      have h1 := abs_sub_round (m * s2 * 10)
      rw [abs_le] at h1
      linarith [h1.1]
    have hms : m * s2 ≤ m := mul_le_of_le_one_right hm hs2r
    rw [div_le_iff₀ (by norm_num : (0:ℚ) < 10)]
    calc (round (m * s2 * 10) : ℚ) ≤ m * s2 * 10 + 1 / 2 := hround
      _ ≤ (m + 1 / 20) * 10 := by linarith

/-- C6 witness: with available width 4, needed width 8 and current scale 1
the stored scale is 1/2 and all amended bounds hold at concrete inputs. -/
theorem titleAutoFit_scale_bounds_mono_witness :
    (0 < nextScaleRaw 4 8 1 ∧ nextScaleRaw 4 8 1 ≤ 1 ∧
      0 ≤ nextScaleUpdate true 4 8 1 ∧ nextScaleUpdate true 4 8 1 ≤ 1 ∧
      nextScaleUpdate true 2 8 1 ≤ nextScaleUpdate true 4 8 1 ∧
      effectiveSizeMm true 4 (1 / 2) ≤ 4 + 1 / 20) ∧
    nextScaleUpdate true 4 8 1 = 1 / 2 :=
  ⟨titleAutoFit_scale_bounds_mono 4 2 8 1 4 (1 / 2) (by norm_num) (by norm_num)
      (by norm_num) (by norm_num) (by norm_num) (by norm_num),
    by norm_num [nextScaleUpdate, nextScaleRaw, round4, round_eq, min_def, max_def]⟩

/-- C6 counterexample: the claim as stated fails twice.  With available
width 1, needed width 100000 and current scale 1 the trial scale is
1/100000, and `toFixed(4)` rounds it to exactly 0 — outside the claimed
interval (0, 1].  And with `maxMm = 4.06` and scale 1 the reported
effective size `Number((4.06).toFixed(1)) = 4.1` exceeds `maxMm`.  (Also,
shrinking the available width to 0 resets the scale to 1, breaking
monotonicity at the guard boundary.) -/
theorem titleAutoFit_scale_zero_counterexample :
    nextScaleUpdate true 1 100000 1 = 0 ∧
    ¬(0 < nextScaleUpdate true 1 100000 1) ∧
    effectiveSizeMm true (406 / 100) 1 = 41 / 10 ∧
    (406 / 100 : ℚ) < 41 / 10 ∧
    nextScaleUpdate true 0 2 1 = 1 ∧
    nextScaleUpdate true 1 2 1 = 1 / 2 := by
  refine ⟨?_, ?_, ?_, by norm_num, ?_, ?_⟩ <;>
    norm_num [nextScaleUpdate, nextScaleRaw, effectiveSizeMm, round4, round1,
      round_eq, min_def, max_def]

/-!
Fifth part: the header height budget of the QR-code export dialog
(`src/unnamed/part_007`, lines 108-114).
-/

/-- Visibility mode of the QR block (`showQRCodeMode`). -/
inductive QRCodeMode where
  | no
  | simple
  | withIcon
deriving DecidableEq

/-- Fixed vertical padding of `.print-qrcode-item` in millimetres
(`src/unnamed/part_007`, line 111). -/
def containerPaddingMm : ℚ := 6 / 5

/-- Minimum height reserved for the main (info/QR) region: nothing when
the QR block is hidden, 8 mm otherwise (`src/unnamed/part_007`,
line 112). -/
def minMainHeightMm (mode : QRCodeMode) : ℚ := if mode = .no then 0 else 8

/-- Content height left by the page and margins, clamped at zero
(`src/unnamed/part_007`, line 113). -/
def availableContentHeightMm (paperHeight topMargin bottomMargin : ℚ) : ℚ :=
  max 0 (paperHeight - topMargin - bottomMargin - containerPaddingMm)

/-- Header height budget (`src/unnamed/part_007`, line 114). -/
def maxHeaderHeightMm (paperHeight topMargin bottomMargin : ℚ) (mode : QRCodeMode) : ℚ :=
  max 0 (availableContentHeightMm paperHeight topMargin bottomMargin - minMainHeightMm mode)

theorem max_zero_sub_max_zero (x m : ℚ) (hm : 0 ≤ m) :
    max 0 (max 0 x - m) = max 0 (x - m) := by
  rcases le_total x 0 with h | h
  · rw [max_eq_left h, max_eq_left (by linarith), max_eq_left (by linarith)]
  · rw [max_eq_right h]

/-- C7: for every paper height, top/bottom margin, and QR visibility mode,
the computed header budget equals
`max 0 (paperHeight - topMargin - bottomMargin - containerPadding -
minMainHeightMm)`, where `minMainHeightMm` is 0 for a hidden QR block and
8 mm otherwise, and the budget is never negative. -/
theorem maxHeaderHeightMm_eq_clamped_budget
    (paperHeight topMargin bottomMargin : ℚ) (mode : QRCodeMode) :
    maxHeaderHeightMm paperHeight topMargin bottomMargin mode =
      max 0 (paperHeight - topMargin - bottomMargin - containerPaddingMm -
        minMainHeightMm mode) ∧
    0 ≤ maxHeaderHeightMm paperHeight topMargin bottomMargin mode ∧
    minMainHeightMm mode = (if mode = QRCodeMode.no then 0 else 8) := by
  have hm : 0 ≤ minMainHeightMm mode := by
    rw [minMainHeightMm]
    by_cases h : mode = QRCodeMode.no
    · rw [if_pos h]
    · rw [if_neg h]
      norm_num
  refine ⟨?_, le_max_left _ _, rfl⟩
  rw [maxHeaderHeightMm, availableContentHeightMm,
    max_zero_sub_max_zero _ _ hm]

/-!
Sixth part: the preset store of the spool export dialog
(`src/unnamed/part_005`).  The nested settings objects are modelled with
type parameters standing for the fields the spread operators copy
verbatim: `π` for the print-settings fields other than `id`, `β` for the
label-settings fields other than `printSettings`, `γ` for the preset
fields other than `labelSettings` (templates etc.).
-/

/-- Resource type owning a preset list. -/
inductive PresetType where
  | spool
  | filament
deriving DecidableEq

/-- Print settings: the identifying UUID plus everything the spread
`{...printSettings}` copies. -/
structure PrintSettingsM (π : Type) where
  id : List Char
  rest : π
deriving DecidableEq

/-- Label settings: the nested print settings plus everything the spread
`{...labelSettings}` copies. -/
structure QRCodePrintSettingsM (π β : Type) where
  printSettings : PrintSettingsM π
  rest : β
deriving DecidableEq

/-- One preset (`SpoolQRCodePrintSettings`): label settings plus the
template fields the spread `{...preset}` copies. -/
structure SpoolQRCodePrintSettingsM (π β γ : Type) where
  labelSettings : QRCodePrintSettingsM π β
  rest : γ
deriving DecidableEq

/-- State of the spool export dialog relevant to preset editing: the local
(spool) preset list when loaded, the foreign (filament) preset list, and
the parsed selection. -/
structure ExportDialogStateM (π β γ : Type) where
  currentPresets : Option (List (SpoolQRCodePrintSettingsM π β γ))
  otherPresets : List (SpoolQRCodePrintSettingsM π β γ)
  selected : Option (PresetType × List Char)
deriving DecidableEq

/-- Copy of a preset with a fresh UUID, as built by the three nested
spreads of `promotePresetToCurrentType` (`src/unnamed/part_005`, lines
377-386): every field is carried over except `printSettings.id`. -/
def promotedCopy {π β γ : Type} (preset : SpoolQRCodePrintSettingsM π β γ)
    (newId : List Char) : SpoolQRCodePrintSettingsM π β γ :=
  { preset with
    labelSettings :=
      { preset.labelSettings with
        printSettings := { preset.labelSettings.printSettings with id := newId } } }

/-- Promotion `promotePresetToCurrentType` (`src/unnamed/part_005`, lines
375-391): when the current list is loaded, append the promoted copy to it
and select it under the current (spool) type; the nondeterministic
`uuidv4()` is passed in as `newId`.  Returns the new state and the
promoted preset. -/
def promotePresetToCurrentType {π β γ : Type} (st : ExportDialogStateM π β γ)
    (preset : SpoolQRCodePrintSettingsM π β γ) (newId : List Char) :
    ExportDialogStateM π β γ × Option (SpoolQRCodePrintSettingsM π β γ) :=
  match st.currentPresets with
  | none => (st, none)
  | some l =>
    ({ st with
        currentPresets := some (l ++ [promotedCopy preset newId]),
        selected := some (PresetType.spool, newId) },
      some (promotedCopy preset newId))

/-- Edit entry point `updateCurrentPreset` (`src/unnamed/part_005`, lines
414-434): with no usable same-type selection the edited settings are
promoted; otherwise the selected preset is replaced in place in the local
list, falling back to promotion when the selected id is no longer
present.  (In the fallback the source's earlier list write is overwritten
by the promotion's, which reads the pre-edit list; since no element
matched, the two lists are equal.) -/
def updateCurrentPreset {π β γ : Type} (st : ExportDialogStateM π β γ)
    (newSettings : SpoolQRCodePrintSettingsM π β γ) (newId : List Char) :
    ExportDialogStateM π β γ :=
  match st.currentPresets with
  | none => st
  | some l =>
    match st.selected with
    | none => (promotePresetToCurrentType st newSettings newId).1
    | some (ty, selId) =>
      if ty ≠ PresetType.spool then (promotePresetToCurrentType st newSettings newId).1
      else if l.any (fun p => p.labelSettings.printSettings.id = selId) then
        { st with
          currentPresets := some (l.map (fun p =>
            if p.labelSettings.printSettings.id = selId then newSettings else p)) }
      else (promotePresetToCurrentType st newSettings newId).1

theorem updateCurrentPreset_otherPresets {π β γ : Type} (st : ExportDialogStateM π β γ)
    (newSettings : SpoolQRCodePrintSettingsM π β γ) (newId : List Char) :
    (updateCurrentPreset st newSettings newId).otherPresets = st.otherPresets := by
  rw [updateCurrentPreset]
  rcases hc : st.currentPresets with _ | l
  · rfl
  · rcases hs : st.selected with _ | ⟨ty, selId⟩
    · rw [promotePresetToCurrentType, hc]
    · dsimp only
      by_cases hty : ty ≠ PresetType.spool
      · rw [if_pos hty, promotePresetToCurrentType, hc]
      · rw [if_neg hty]
        by_cases hfound : l.any (fun p => p.labelSettings.printSettings.id = selId) = true
        · rw [if_pos hfound]
        · rw [if_neg hfound, promotePresetToCurrentType, hc]

/-- C8: editing while a cross-type (filament) preset is selected routes
through promotion of the edited settings; promotion appends a copy of the
preset to the spool list carrying the freshly generated UUID and every
other field unchanged, selects it under the spool type, and no step -
promotion or any subsequent edit - ever modifies the foreign (filament)
preset list. -/
theorem promotePreset_fresh_and_foreign_untouched {π β γ : Type}
    (st : ExportDialogStateM π β γ) (preset : SpoolQRCodePrintSettingsM π β γ)
    (newId : List Char) (l : List (SpoolQRCodePrintSettingsM π β γ))
    (hcur : st.currentPresets = some l) :
    (promotePresetToCurrentType st preset newId).1.otherPresets = st.otherPresets ∧
    (promotePresetToCurrentType st preset newId).1.currentPresets =
      some (l ++ [promotedCopy preset newId]) ∧
    (promotePresetToCurrentType st preset newId).1.selected =
      some (PresetType.spool, newId) ∧
    (promotePresetToCurrentType st preset newId).2 = some (promotedCopy preset newId) ∧
    (promotedCopy preset newId).labelSettings.printSettings.id = newId ∧
    (promotedCopy preset newId).labelSettings.printSettings.rest =
      preset.labelSettings.printSettings.rest ∧
    (promotedCopy preset newId).labelSettings.rest = preset.labelSettings.rest ∧
    (promotedCopy preset newId).rest = preset.rest ∧
    (newId ∉ l.map (fun p => p.labelSettings.printSettings.id) →
      (promotedCopy preset newId).labelSettings.printSettings.id ∉
        l.map (fun p => p.labelSettings.printSettings.id)) ∧
    (∀ fid, st.selected = some (PresetType.filament, fid) →
      updateCurrentPreset st preset newId = (promotePresetToCurrentType st preset newId).1) ∧
    (∀ (st2 : ExportDialogStateM π β γ) ns2 id2,
      (updateCurrentPreset st2 ns2 id2).otherPresets = st2.otherPresets) := by
  refine ⟨?_, ?_, ?_, ?_, rfl, rfl, rfl, rfl, ?_, ?_, ?_⟩
  · rw [promotePresetToCurrentType, hcur]
  · rw [promotePresetToCurrentType, hcur]
  · rw [promotePresetToCurrentType, hcur]
  · rw [promotePresetToCurrentType, hcur]
  · intro h
    simpa using h
  · intro fid hsel
    rw [updateCurrentPreset, hcur, hsel]
    dsimp only
    rw [if_pos (by decide)]
  · intro st2 ns2 id2
    exact updateCurrentPreset_otherPresets st2 ns2 id2

/-- Concrete dialog state for the C8 witness: one spool preset, one
foreign filament preset, and a filament (cross-type) selection. -/
def c8state : ExportDialogStateM Nat Nat Nat :=
  ⟨some [⟨⟨⟨"s1".data, 1⟩, 2⟩, 3⟩], [⟨⟨⟨"f1".data, 4⟩, 5⟩, 6⟩],
    some (PresetType.filament, "f1".data)⟩

/-- Foreign preset being edited in the C8 witness. -/
def c8preset : SpoolQRCodePrintSettingsM Nat Nat Nat := ⟨⟨⟨"f1".data, 4⟩, 5⟩, 6⟩

/-- C8 witness: on a concrete state with a cross-type selection, the edit
routes through promotion, the promoted copy is appended to the spool list,
and the filament list is untouched. -/
theorem promotePreset_fresh_and_foreign_untouched_witness :
    (promotePresetToCurrentType c8state c8preset "u9".data).1.otherPresets =
      c8state.otherPresets ∧
    (promotePresetToCurrentType c8state c8preset "u9".data).1.currentPresets =
      some ([⟨⟨⟨"s1".data, 1⟩, 2⟩, 3⟩] ++ [promotedCopy c8preset "u9".data]) ∧
    updateCurrentPreset c8state c8preset "u9".data =
      (promotePresetToCurrentType c8state c8preset "u9".data).1 := by
  have h := promotePreset_fresh_and_foreign_untouched c8state c8preset "u9".data
    [⟨⟨⟨"s1".data, 1⟩, 2⟩, 3⟩] rfl
  exact ⟨h.1, h.2.1, h.2.2.2.2.2.2.2.2.2.1 "f1".data rfl⟩


/-!
Seventh part: export outputs (`src/unnamed/part_008`): `saveAsImage`
(lines 325-334), `saveAsAmlLabels` (lines 336-344), `saveAsZip` (lines
346-368) and `handleExport` (lines 370-382).  Outputs are modelled by the
files the invocation downloads; the rasterised PNG payloads and the AML
XML text do not matter to the claim and are omitted from the artifacts.
-/

/-- Export format setting (`exportFormat`). -/
inductive ExportFormat where
  | png
  | aml
deriving DecidableEq

/-- Kind of a file stored inside a zip archive. -/
inductive EntryKind where
  | png
  | aml
deriving DecidableEq

/-- One browser download produced by an export invocation. -/
inductive Download where
  | pngFile (name : List Char)
  | amlFile (name : List Char)
  | zipFile (name : List Char) (entries : List (List Char × EntryKind))
deriving DecidableEq

/-- Lower-case name of an export format, as stored in settings. -/
def formatName : ExportFormat → List Char
  | .png => "png".data
  | .aml => "aml".data

/-- JavaScript `s.toUpperCase()` on the ASCII format names. -/
def jsToUpperCase (s : List Char) : List Char := s.map Char.toUpper

/-- `saveAsImage`: one PNG download per unique item. -/
def saveAsImage (items : List ExportItem) : List Download :=
  (getUniqueExportItems items).map (fun p => .pngFile (p.2 ++ ".png".data))

/-- `saveAsAmlLabels`: one AML download per unique item. -/
def saveAsAmlLabels (items : List ExportItem) : List Download :=
  (getUniqueExportItems items).map (fun p => .amlFile (p.2 ++ ".aml".data))

/-- `saveAsZip`: nothing when there are no unique items, otherwise a
single archive named `<FORMAT> <type> labels.zip` holding one entry per
unique item, `.png` entries in PNG mode and `.aml` entries otherwise. -/
def saveAsZip (fmt : ExportFormat) (zipFileTypeName : List Char)
    (items : List ExportItem) : List Download :=
  let uniqueItems := getUniqueExportItems items
  if uniqueItems.length = 0 then []
  else
    [.zipFile (jsToUpperCase (formatName fmt) ++ ' ' :: zipFileTypeName ++ " labels.zip".data)
      (uniqueItems.map (fun p =>
        if fmt = .png then (p.2 ++ ".png".data, EntryKind.png)
        else (p.2 ++ ".aml".data, EntryKind.aml)))]

/-- `handleExport`: zip mode takes priority, otherwise the format picks
the per-file saver. -/
def handleExport (fmt : ExportFormat) (exportAsZip : Bool) (zipFileTypeName : List Char)
    (items : List ExportItem) : List Download :=
  if exportAsZip then saveAsZip fmt zipFileTypeName items
  else if fmt = .png then saveAsImage items
  else saveAsAmlLabels items

/-- Presence of PNG data among the downloads, looking inside archives. -/
def downloadHasPng : Download → Bool
  | .pngFile _ => true
  | .amlFile _ => false
  | .zipFile _ entries => entries.any (fun e => e.2 = EntryKind.png)

/-- Presence of AML data among the downloads, looking inside archives. -/
def downloadHasAml : Download → Bool
  | .pngFile _ => false
  | .amlFile _ => true
  | .zipFile _ entries => entries.any (fun e => e.2 = EntryKind.aml)

/-- PNG output anywhere in an invocation's downloads. -/
def producesPng (ds : List Download) : Bool := ds.any downloadHasPng

/-- AML output anywhere in an invocation's downloads. -/
def producesAml (ds : List Download) : Bool := ds.any downloadHasAml

theorem producesAml_saveAsImage (items : List ExportItem) :
    producesAml (saveAsImage items) = false := by
  simp only [producesAml, saveAsImage, List.any_eq_false]
  intro d hd
  rcases List.mem_map.mp hd with ⟨p, _, hp⟩
  rw [← hp]
  simp [downloadHasAml]

theorem producesPng_saveAsAmlLabels (items : List ExportItem) :
    producesPng (saveAsAmlLabels items) = false := by
  simp only [producesPng, saveAsAmlLabels, List.any_eq_false]
  intro d hd
  rcases List.mem_map.mp hd with ⟨p, _, hp⟩
  rw [← hp]
  simp [downloadHasPng]

theorem zipEntries_png (zipFileTypeName : List Char) (items : List ExportItem) :
    producesAml (saveAsZip ExportFormat.png zipFileTypeName items) = false := by
  rw [saveAsZip]
  by_cases hu : (getUniqueExportItems items).length = 0
  · rw [if_pos hu]
    rfl
  · rw [if_neg hu]
    simp only [producesAml, List.any_cons, List.any_nil, downloadHasAml, Bool.or_false]
    rw [List.any_eq_false]
    intro e he
    rcases List.mem_map.mp he with ⟨p, _, hp⟩
    rw [← hp]
    simp

theorem zipEntries_aml (zipFileTypeName : List Char) (items : List ExportItem) :
    producesPng (saveAsZip ExportFormat.aml zipFileTypeName items) = false := by
  rw [saveAsZip]
  by_cases hu : (getUniqueExportItems items).length = 0
  · rw [if_pos hu]
    rfl
  · rw [if_neg hu]
    simp only [producesPng, List.any_cons, List.any_nil, downloadHasPng, Bool.or_false]
    rw [List.any_eq_false]
    intro e he
    rcases List.mem_map.mp he with ⟨p, _, hp⟩
    rw [← hp]
    simp

/-- C9: a single export invocation is format-exclusive - it never
produces both PNG and AML outputs - and in AML zip mode with at least one
unique item it yields exactly one archive, named
`AML <resourceType> labels.zip`, containing one `.aml` entry per unique
item and no `.png` entry. -/
theorem handleExport_format_exclusive_zip (fmt : ExportFormat) (exportAsZip : Bool)
    (zipFileTypeName : List Char) (items : List ExportItem) :
    ¬(producesPng (handleExport fmt exportAsZip zipFileTypeName items) = true ∧
      producesAml (handleExport fmt exportAsZip zipFileTypeName items) = true) ∧
    (fmt = ExportFormat.aml → exportAsZip = true → ¬getUniqueExportItems items = [] →
      handleExport fmt exportAsZip zipFileTypeName items =
        [Download.zipFile ("AML ".data ++ zipFileTypeName ++ " labels.zip".data)
          ((getUniqueExportItems items).map
            (fun p => (p.2 ++ ".aml".data, EntryKind.aml)))] ∧
      ((getUniqueExportItems items).map
          (fun p => (p.2 ++ ".aml".data, EntryKind.aml))).length =
        (getUniqueExportItems items).length ∧
      ((getUniqueExportItems items).map
          (fun p => (p.2 ++ ".aml".data, EntryKind.aml))).countP
        (fun e => e.2 = EntryKind.png) = 0) := by
  constructor
  · rintro ⟨hpng, haml⟩
    cases hz : exportAsZip with
    | false =>
      rw [handleExport, if_neg (by simp [hz])] at hpng haml
      cases hf : fmt with
      | png =>
        rw [hf, if_pos rfl, producesAml_saveAsImage] at haml
        exact Bool.false_ne_true haml
      | aml =>
        rw [hf, if_neg (by simp), producesPng_saveAsAmlLabels] at hpng
        exact Bool.false_ne_true hpng
    | true =>
      rw [handleExport, if_pos hz] at hpng haml
      cases hf : fmt with
      | png =>
        rw [hf, zipEntries_png] at haml
        exact Bool.false_ne_true haml
      | aml =>
        rw [hf, zipEntries_aml] at hpng
        exact Bool.false_ne_true hpng
  · intro hf hz hu
    subst hf
    subst hz
    rw [handleExport, if_pos rfl, saveAsZip]
    rw [if_neg (by simp [hu])]
    refine ⟨?_, by simp, ?_⟩
    · have hmap : (getUniqueExportItems items).map (fun p =>
          if ExportFormat.aml = ExportFormat.png then (p.2 ++ ".png".data, EntryKind.png)
          else (p.2 ++ ".aml".data, EntryKind.aml)) =
        (getUniqueExportItems items).map (fun p => (p.2 ++ ".aml".data, EntryKind.aml)) := by
        apply List.map_congr_left
        intro p _
        rw [if_neg (by decide)]
      rw [hmap]
      rfl
    · rw [List.countP_eq_zero]
      intro e he
      rcases List.mem_map.mp he with ⟨p, _, hp⟩
      rw [← hp]
      simp

theorem handleExport_format_exclusive_zip_witness :
    ¬getUniqueExportItems [⟨0, "a".data⟩, ⟨1, "b".data⟩] = [] ∧
    handleExport ExportFormat.aml true "spool".data [⟨0, "a".data⟩, ⟨1, "b".data⟩] =
      [Download.zipFile "AML spool labels.zip".data
        [("a.aml".data, EntryKind.aml), ("b.aml".data, EntryKind.aml)]] := by
  have h := handleExport_format_exclusive_zip ExportFormat.aml true "spool".data
    [⟨0, "a".data⟩, ⟨1, "b".data⟩]
  refine ⟨by decide, ?_⟩
  rw [(h.2 rfl rfl (by decide)).1]
  decide
